import Mathlib

/-!
A shallow embedding, in Lean 4, of the event-driven EMS simulation and its
genetic optimizer (source files: ems_core.py, ga_opt.py).

Modelling conventions:
* Python floats (times, rates, genes) are modelled as rationals; the survival
  functions, which use the exponential, land in the reals.
* Python lists and dicts become Lean lists and insertion-ordered association
  lists (a Python dict preserves insertion order, and assigning to an existing
  key updates it in place).
* The event queue is the CPython heapq algorithm (heappush / heappop with
  siftdown and siftup), translated operation for operation over lists, with
  elements compared exactly as the source's Event.__lt__ does: by time only.
* The simulation loop takes a fuel parameter; with enough fuel it performs
  exactly the iterations the Python loop performs, and when fuel runs out it
  returns the state reached so far unchanged.
* The travel model is an external collaborator of the engine; it is kept
  abstract as a structure of functions, as the spec prescribes.
-/

namespace EMS

/-- A grid position (row, col), ems_core.py uses int pairs. -/
abbrev Pos : Type := ℤ × ℤ

/-- Vehicle kind: "A" (ambulance) or "R" (rapid response car), ems_core.py line 35. -/
inductive VKind where
  | A : VKind
  | R : VKind
deriving DecidableEq, Repr

/-- Call record, ems_core.py lines 8-25.  Times and durations are seconds. -/
structure Call where
  call_id : ℕ
  t_call : ℚ
  dispatch_delay : ℚ
  scene_time : ℚ
  hospital_time : ℚ
  handover_time : ℚ
  need_ambulances : ℤ
  need_rrc : ℤ
  category : String
  loc_scene : Pos
  loc_hospital : Pos
deriving DecidableEq, Repr

/-- Vehicle record, ems_core.py lines 32-44.  loc is Optional and is filled
from the home station by Simulation.__init__. -/
structure Vehicle where
  vehicle_id : ℕ
  kind : VKind
  home_station_id : ℕ
  busy : Bool := false
  route : List Pos := []
  loc : Option Pos := none
  assigned_call : Option ℕ := none
deriving DecidableEq, Repr

/-- Event kind together with its payload; the source stores an etype string
("CALL_ARRIVE", "SCENE_DEPART", "JOB_COMPLETE", "LOC_UPDATE") and a payload
that is a Call, a Call, a (call_id, vehicle_id) pair, or a vehicle id
respectively (ems_core.py lines 106-111 and the push sites). -/
inductive EData where
  | callArrive (c : Call)
  | sceneDepart (c : Call)
  | jobComplete (cid vid : ℕ)
  | locUpdate (vid : ℕ)
deriving DecidableEq, Repr

/-- Event, ems_core.py lines 106-113.  Ordering (Event.__lt__) compares by
time only. -/
structure Event where
  time : ℚ
  data : EData
deriving DecidableEq, Repr

instance : Inhabited Event := ⟨⟨0, .locUpdate 0⟩⟩

/-! ### The CPython heapq algorithm, specialised to Event lists.

heapq orders elements with `<`, which for Event is `Event.__lt__`:
`self.time < other.time` (ems_core.py line 112-113).  The three helpers below
are line-for-line translations of CPython's `_siftdown`, `_siftup`,
`heappush` and `heappop`.  The loops are written with a fuel argument to keep
them structurally recursive; each caller passes fuel that provably dominates
the iteration count, so the fuel never runs out (sdGo's bubble-up position
strictly decreases, suGo's position strictly increases below the length). -/

/-- Index of the parent of heap slot i, CPython's `(pos - 1) >> 1`. -/
def hparent (i : ℕ) : ℕ := (i - 1) / 2

/-- CPython `_siftdown(heap, startpos, pos)` loop: bubble `newitem` up from
`pos` toward `startpos`.  `fuel ≥ pos` guarantees faithful termination. -/
def sdGo (startpos : ℕ) (newitem : Event) : ℕ → List Event → ℕ → List Event
  | 0, heap, pos => heap.set pos newitem
  | fuel + 1, heap, pos =>
    if startpos < pos then
      let parentpos := hparent pos
      let parent := heap.getD parentpos default
      if newitem.time < parent.time then
        sdGo startpos newitem fuel (heap.set pos parent) parentpos
      else
        heap.set pos newitem
    else
      heap.set pos newitem

/-- CPython `_siftdown(heap, startpos, pos)`; reads `newitem = heap[pos]`. -/
def siftdown (heap : List Event) (startpos pos : ℕ) : List Event :=
  sdGo startpos (heap.getD pos default) pos heap pos

/-- CPython `_siftup` main loop: move the smaller child up until reaching a
leaf; returns the rearranged list and the final (leaf) position.
`fuel ≥ heap.length` guarantees faithful termination. -/
def suGo : ℕ → List Event → ℕ → List Event × ℕ
  | 0, heap, pos => (heap, pos)
  | fuel + 1, heap, pos =>
    let endpos := heap.length
    let childpos := 2 * pos + 1
    if childpos < endpos then
      let rightpos := childpos + 1
      let c :=
        if rightpos < endpos ∧
            ¬ (heap.getD childpos default).time < (heap.getD rightpos default).time then
          rightpos
        else childpos
      suGo fuel (heap.set pos (heap.getD c default)) c
    else
      (heap, pos)

/-- CPython `_siftup(heap, pos)`: walk the hole down to a leaf, put the item
that was at `pos` there, then bubble it back up toward `startpos = pos`. -/
def siftup (heap : List Event) (pos : ℕ) : List Event :=
  let newitem := heap.getD pos default
  let hp := suGo heap.length heap pos
  sdGo pos newitem hp.2 hp.1 hp.2

/-- CPython `heapq.heappush`. -/
def heappush (heap : List Event) (item : Event) : List Event :=
  sdGo 0 item heap.length (heap ++ [item]) heap.length

/-- CPython `heapq.heappop`: pop the last element; if the heap is still
non-empty, the root is returned and the last element is sifted down from the
root.  An empty heap raises IndexError in Python, modelled as `none`. -/
def heappop (heap : List Event) : Option (Event × List Event) :=
  match heap.getLast? with
  | none => none
  | some lastelt =>
    let rest := heap.dropLast
    if rest.isEmpty then
      some (lastelt, [])
    else
      some (rest.getD 0 default, siftup (rest.set 0 lastelt) 0)

/-- The binary-heap ordering invariant maintained by heapq: every non-root
slot is at least its parent, in the `Event.__lt__` order (time only). -/
def heapInvP (l : List Event) : Prop :=
  ∀ i, i < l.length → 0 < i →
    (l.getD (hparent i) default).time ≤ (l.getD i default).time

instance heapInvP.dec (l : List Event) : Decidable (heapInvP l) := by
  unfold heapInvP; infer_instance

/-- Slot i's event time is at most slot j's. -/
def pairLe (l : List Event) (i j : ℕ) : Prop :=
  (l.getD i default).time ≤ (l.getD j default).time

/-- Precondition under which bubbling `x` up from the hole at `p`
(CPython's `_siftdown`) restores the heap invariant: away from slot p the
parent ordering holds, `x` is no later than p's children, and p's parent is
no later than p's children. -/
def sdPre (h : List Event) (p : ℕ) (x : Event) : Prop :=
  (∀ j, j < h.length → 0 < j → j ≠ p → hparent j ≠ p → pairLe h (hparent j) j) ∧
  (∀ j, j < h.length → 0 < j → hparent j = p → x.time ≤ (h.getD j default).time) ∧
  (0 < p → ∀ j, j < h.length → 0 < j → hparent j = p → pairLe h (hparent p) j)

/-- Precondition under which walking the hole at `p` down to a leaf
(CPython's `_siftup` main loop) keeps every other pair ordered. -/
def suPre (h : List Event) (p : ℕ) : Prop :=
  (∀ j, j < h.length → 0 < j → j ≠ p → hparent j ≠ p → pairLe h (hparent j) j) ∧
  (0 < p → ∀ j, j < h.length → 0 < j → hparent j = p → pairLe h (hparent p) j)

/-! ### Association lists with Python dict semantics -/

/-- First-match lookup in an association list (all our dict models are built
with `dictSet`, which keeps keys unique, so first match equals dict lookup). -/
def alookup {β : Type} : List (ℕ × β) → ℕ → Option β
  | [], _ => none
  | (k, v) :: t, key => if k = key then some v else alookup t key

/-- Python `d[k] = v`: overwrite in place if the key exists (keeping its
position), else append. -/
def dictSet {β : Type} : List (ℕ × β) → ℕ → β → List (ℕ × β)
  | [], key, v => [(key, v)]
  | (k, w) :: t, key, v => if k = key then (key, v) :: t else (k, w) :: dictSet t key v

/-- Update the value stored at a key, leaving other entries alone (models
mutating the object stored in a Python dict). -/
def dictModify {β : Type} (l : List (ℕ × β)) (key : ℕ) (f : β → β) : List (ℕ × β) :=
  l.map fun kv => if kv.1 = key then (kv.1, f kv.2) else kv

/-! ### Travel model interface

The travel/routing model is an external collaborator (spec section 1 declares
it out of scope and section 6 gives its contract); the engine consumes it
through these two functions. -/

/-- The travel-model contract consumed by the simulation:
`travel_time start end t0 kind` in seconds, and a discretized `route`. -/
structure Travel where
  travel_time : Pos → Pos → ℚ → VKind → ℚ
  route : Pos → Pos → List Pos

/-! ### Simulation state, ems_core.py lines 115-141 -/

/-- The mutable state of `Simulation`.  `ghost` is observational
instrumentation only: every time the code records a response time it also
appends `(call, first-arrival time, recorded value)` there; no handler reads
it. -/
structure SimState where
  calls : List Call
  stations : List (ℕ × Pos)
  vehicles : List (ℕ × Vehicle)
  loc_update_period : ℚ
  event_q : List Event
  wait_q : List ℕ
  now : ℚ
  response_times : List (ℕ × ℚ)
  call_assignments : List (ℕ × List ℕ)
  ghost : List (Call × ℚ × ℚ)
deriving DecidableEq, Repr

instance : Inhabited Vehicle := ⟨{ vehicle_id := 0, kind := .A, home_station_id := 0 }⟩

instance : Inhabited Call :=
  ⟨{ call_id := 0, t_call := 0, dispatch_delay := 0, scene_time := 0, hospital_time := 0,
     handover_time := 0, need_ambulances := 0, need_rrc := 0, category := "catC",
     loc_scene := (0, 0), loc_hospital := (0, 0) }⟩

/-- The (r, c) position of a vehicle; after `initSim` every vehicle's loc is
set, so the default is never read on a well-formed run. -/
def vloc (v : Vehicle) : Pos := v.loc.getD (0, 0)

/-- Stable insertion of a call into a list sorted by t_call (equal keys keep
their original relative order, as Python's stable `sorted` does). -/
def insertCall (c : Call) : List Call → List Call
  | [] => [c]
  | d :: ds => if c.t_call < d.t_call then c :: d :: ds else d :: insertCall c ds

/-- `sorted(calls, key=lambda c: c.t_call)`, ems_core.py line 124. -/
def sortCalls (l : List Call) : List Call := l.foldr insertCall []

/-- Fill each vehicle's loc from its home station when it is None,
ems_core.py lines 139-141. -/
def fillLoc (stations : List (ℕ × Pos)) (v : Vehicle) : Vehicle :=
  match v.loc with
  | none => { v with loc := some ((alookup stations v.home_station_id).getD (0, 0)) }
  | some _ => v

/-- `Simulation.__init__`, ems_core.py lines 116-141. -/
def initSim (calls : List Call) (stations : List (ℕ × Pos)) (vehicles : List (ℕ × Vehicle))
    (period : ℚ) : SimState :=
  { calls := sortCalls calls
    stations := stations
    vehicles := vehicles.map fun kv => (kv.1, fillLoc stations kv.2)
    loc_update_period := period
    event_q := []
    wait_q := []
    now := 0
    response_times := []
    call_assignments := []
    ghost := [] }

/-! ### Dispatch policy, ems_core.py lines 279-300 -/

/-- A state's vehicle values in dict order. -/
def vehicleList (st : SimState) : List Vehicle := st.vehicles.map Prod.snd

/-- The idle vehicles, in dict order (ems_core.py line 287). -/
def idleVehicles (st : SimState) : List Vehicle :=
  (vehicleList st).filter fun v => v.busy = false

/-- Stable insertion by a rational key (the new element goes after existing
elements with key less than or equal to its own). -/
def insKey {α : Type} (key : α → ℚ) (x : α) : List α → List α
  | [] => [x]
  | y :: ys => if key x < key y then x :: y :: ys else y :: insKey key x ys

/-- Python's stable `list.sort(key=...)` as an insertion sort. -/
def sortKey {α : Type} (key : α → ℚ) (l : List α) : List α := l.foldr (insKey key) []

/-- ETA of vehicle v to the scene of call c at time `now`
(ems_core.py line 289). -/
def etaTo (tr : Travel) (now : ℚ) (c : Call) (v : Vehicle) : ℚ :=
  tr.travel_time (vloc v) c.loc_scene now v.kind

/-- The greedy pick loop of `_dispatch` (ems_core.py lines 291-298): walk the
ETA-sorted idle vehicles, take ambulances while needA > 0 and rapid-response
cars while needR > 0, and break once both needs reach zero. -/
def greedyPick : List Vehicle → ℤ → ℤ → List ℕ → List ℕ
  | [], _, _, acc => acc
  | v :: vs, needA, needR, acc =>
    let step :=
      if v.kind = .A ∧ 0 < needA then (acc ++ [v.vehicle_id], needA - 1, needR)
      else if v.kind = .R ∧ 0 < needR then (acc ++ [v.vehicle_id], needA, needR - 1)
      else (acc, needA, needR)
    if step.2.1 = 0 ∧ step.2.2 = 0 then step.1
    else greedyPick vs step.2.1 step.2.2 step.1

/-- `Simulation._dispatch`, ems_core.py lines 279-300: greedy nearest-ETA
dispatch by type; the source's own docstring allows partial assignment. -/
def dispatch (tr : Travel) (st : SimState) (c : Call) : List ℕ :=
  let idle := sortKey (etaTo tr st.now c) (idleVehicles st)
  greedyPick idle c.need_ambulances c.need_rrc []

/-! ### State helpers, ems_core.py lines 302-311 and 272-277 -/

/-- `Simulation._flag_busy`, ems_core.py lines 302-306. -/
def flagBusy (vids : List ℕ) (cid : ℕ) (st : SimState) : SimState :=
  { st with vehicles :=
      vids.foldl (fun vs vid =>
        dictModify vs vid fun v => { v with busy := true, assigned_call := some cid }) st.vehicles }

/-- `Simulation._vehicle_become_available`, ems_core.py lines 308-311. -/
def becomeAvailable (vid : ℕ) (st : SimState) : SimState :=
  { st with vehicles :=
      dictModify st.vehicles vid fun v => { v with busy := false, assigned_call := none } }

/-- The vehicle stored under a key (Python raises KeyError when absent; the
default is never read on a well-formed run). -/
def getVehicle (st : SimState) (vid : ℕ) : Vehicle := (alookup st.vehicles vid).getD default

/-- `Simulation._begin_travel_to`, ems_core.py lines 272-277: rebuild the
vehicle's route and schedule a periodic LOC_UPDATE tick. -/
def beginTravelTo (tr : Travel) (vid : ℕ) (dest : Pos) (t_depart : ℚ) (st : SimState) : SimState :=
  let v := getVehicle st vid
  let vehicles' := dictModify st.vehicles vid fun w => { w with route := tr.route (vloc v) dest }
  let st := { st with vehicles := vehicles' }
  { st with
    event_q := heappush st.event_q ⟨max st.now t_depart + st.loc_update_period, .locUpdate vid⟩ }

/-- Python's `min(assigned, key=f)`: first element attaining the minimum. -/
def pyMinBy (f : ℕ → ℚ) (x : ℕ) (xs : List ℕ) : ℕ :=
  xs.foldl (fun acc y => if f y < f acc then y else acc) x

/-! ### Event handlers, ems_core.py lines 186-268 and 313-342 -/

/-- Lines 189-190 / 324-325: flag the assigned vehicles busy on the call
and record the call-to-vehicles assignment. -/
def flagAssign (c : Call) (a0 : ℕ) (arest : List ℕ) (st : SimState) : SimState :=
  let st1 := flagBusy (a0 :: arest) c.call_id st
  { st1 with call_assignments := dictSet st1.call_assignments c.call_id (a0 :: arest) }

/-- Lines 193-200 / 327-334: the first arriving vehicle's arrival time,
now + dispatch delay + the smallest ETA among the assigned vehicles
(`min(assigned, key=eta)` keeps the first minimiser). -/
def firstArrival (tr : Travel) (c : Call) (a0 : ℕ) (arest : List ℕ) (st : SimState) : ℚ :=
  let etaOf := fun vid => etaTo tr st.now c (getVehicle st vid)
  st.now + c.dispatch_delay + etaOf (pyMinBy etaOf a0 arest)

/-- The success path of `_on_call_arrive` / `_check_queue` up to and
including pushing SCENE_DEPART (lines 189-207 / 324-337): flag and record
the assignment, record the response time `t_arrive_first - t_call` when
`rec` is true (`_on_call_arrive` passes record_stats; `_check_queue` always
records), and schedule SCENE_DEPART at first arrival + scene time. -/
def serveCallPre (tr : Travel) (rec : Bool) (c : Call) (a0 : ℕ) (arest : List ℕ)
    (st : SimState) : SimState :=
  let st2 := flagAssign c a0 arest st
  let t_arrive_first := firstArrival tr c a0 arest st2
  let st3 :=
    if rec then
      { st2 with
        response_times := dictSet st2.response_times c.call_id (t_arrive_first - c.t_call)
        ghost := st2.ghost ++ [(c, t_arrive_first, t_arrive_first - c.t_call)] }
    else st2
  { st3 with event_q :=
      heappush st3.event_q ⟨t_arrive_first + c.scene_time, .sceneDepart c⟩ }

/-- The common success path of `_on_call_arrive` (lines 189-210) and
`_check_queue` (lines 324-339): the bookkeeping above, then every assigned
vehicle starts toward the scene, departing at now + dispatch delay. -/
def serveCall (tr : Travel) (rec : Bool) (c : Call) (assigned : List ℕ) (st : SimState) :
    SimState :=
  match assigned with
  | [] => st
  | a0 :: arest =>
    (a0 :: arest).foldl
      (fun s vid => beginTravelTo tr vid c.loc_scene (s.now + c.dispatch_delay) s)
      (serveCallPre tr rec c a0 arest st)

/-- `Simulation._on_call_arrive`, ems_core.py lines 186-214. -/
def onCallArrive (tr : Travel) (rec : Bool) (c : Call) (st : SimState) : SimState :=
  let assigned := dispatch tr st c
  if assigned.isEmpty then
    { st with wait_q := st.wait_q ++ [c.call_id] }
  else
    serveCall tr rec c assigned st

/-- `{c.call_id: c for c in self.calls}` then indexing, ems_core.py
line 318: a dict comprehension keeps the last call with a given id. -/
def idToCall (calls : List Call) (cid : ℕ) : Option Call :=
  (calls.filter fun c => c.call_id = cid).getLast?

/-- The body of `_check_queue`'s loop over the wait list, ems_core.py lines
319-342: each waiting call is looked up and re-dispatched; on success it is
served (always recording its response time), on failure it stays queued in
order. -/
def cqGo (tr : Travel) : List ℕ → List ℕ → SimState → SimState
  | [], still, st => { st with wait_q := still }
  | cid :: rest, still, st =>
    let c := (idToCall st.calls cid).getD default
    let assigned := dispatch tr st c
    if assigned.isEmpty then
      cqGo tr rest (still ++ [cid]) st
    else
      cqGo tr rest still (serveCall tr true c assigned st)

/-- `Simulation._check_queue`, ems_core.py lines 313-342. -/
def checkQueue (tr : Travel) (st : SimState) : SimState :=
  if st.wait_q.isEmpty then st else cqGo tr st.wait_q [] st

/-- `Simulation._on_scene_depart`, ems_core.py lines 216-246. -/
def onSceneDepart (tr : Travel) (c : Call) (st : SimState) : SimState :=
  let assigned := (alookup st.call_assignments c.call_id).getD []
  if assigned.isEmpty then st
  else
    let transport_vid : Option ℕ :=
      if 0 < c.hospital_time ∧ assigned.any (fun v => (getVehicle st v).kind = .A) then
        assigned.find? fun v => (getVehicle st v).kind = .A
      else none
    let st :=
      match transport_vid with
      | some tvid =>
        let st := beginTravelTo tr tvid c.loc_hospital st.now st
        let t_arrive_hosp :=
          st.now + tr.travel_time (vloc (getVehicle st tvid)) c.loc_hospital st.now .A
        let job_complete_time := t_arrive_hosp + c.hospital_time + c.handover_time
        { st with event_q :=
            heappush st.event_q ⟨job_complete_time, .jobComplete c.call_id tvid⟩ }
      | none => st
    let st := assigned.foldl (fun s vid =>
      if transport_vid = some vid then s
      else
        let s := becomeAvailable vid s
        beginTravelTo tr vid
          ((alookup s.stations (getVehicle s vid).home_station_id).getD (0, 0)) s.now s) st
    checkQueue tr st

/-- `Simulation._on_job_complete`, ems_core.py lines 248-254. -/
def onJobComplete (tr : Travel) (tvid : ℕ) (st : SimState) : SimState :=
  let st := becomeAvailable tvid st
  let st := beginTravelTo tr tvid
    ((alookup st.stations (getVehicle st tvid).home_station_id).getD (0, 0)) st.now st
  checkQueue tr st

/-- `Simulation._on_loc_update`, ems_core.py lines 256-268: advance a
traveling vehicle one waypoint and reschedule while waypoints remain. -/
def onLocUpdate (vid : ℕ) (st : SimState) : SimState :=
  let v := getVehicle st vid
  let st :=
    if v.route.isEmpty then st
    else
      let route := v.route.tail
      { st with vehicles := dictModify st.vehicles vid fun w =>
          { w with route := route,
                   loc := if route.isEmpty then w.loc else some (route.headD (0, 0)) } }
  if (getVehicle st vid).route.isEmpty then st
  else
    { st with
      event_q := heappush st.event_q ⟨st.now + st.loc_update_period, .locUpdate vid⟩ }

/-- Dispatch on the event type, ems_core.py lines 169-179. -/
def handle (tr : Travel) (rec : Bool) (ev : Event) (st : SimState) : SimState :=
  match ev.data with
  | .callArrive c => onCallArrive tr rec c st
  | .sceneDepart c => onSceneDepart tr c st
  | .jobComplete _ vid => onJobComplete tr vid st
  | .locUpdate vid => onLocUpdate vid st

/-- `Simulation._loop`, ems_core.py lines 163-182: pop events while the
earliest is before `until_`, advancing the clock to each popped event's time;
afterwards set the clock to `until_`.  When fuel runs out the state reached
so far is returned unchanged. -/
def simLoop (tr : Travel) (until_ : ℚ) (rec : Bool) : ℕ → SimState → SimState
  | 0, st => st
  | fuel + 1, st =>
    match st.event_q.head? with
    | none => { st with now := until_ }
    | some e0 =>
      if e0.time < until_ then
        match heappop st.event_q with
        | none => { st with now := until_ }
        | some (ev, q) =>
          simLoop tr until_ rec fuel (handle tr rec ev { st with event_q := q, now := ev.time })
      else { st with now := until_ }

/-- Push CALL_ARRIVE events for every call with `lo ≤ t_call < hi`, in call
order (ems_core.py lines 147-149 and 154-156). -/
def pushArrivals (lo hi : ℚ) (st : SimState) : SimState :=
  let q' := st.calls.foldl
    (fun q c => if lo ≤ c.t_call ∧ c.t_call < hi then heappush q ⟨c.t_call, .callArrive c⟩ else q)
    st.event_q
  { st with event_q := q' }

/-- `Simulation.run` up to (but not including) the KPI computation,
ems_core.py lines 144-158: warm-up phase over [t_start − warmup_buffer,
t_start) without statistics, then the study window [t_start, t_end) with
statistics. -/
def simRunState (tr : Travel) (calls : List Call) (stations : List (ℕ × Pos))
    (vehicles : List (ℕ × Vehicle)) (period : ℚ) (t_start t_end warmup_buffer : ℚ)
    (fuel : ℕ) : SimState :=
  let st := initSim calls stations vehicles period
  let st := pushArrivals (t_start - warmup_buffer) t_start st
  let st := simLoop tr t_start false fuel st
  let st := pushArrivals t_start t_end st
  simLoop tr t_end true fuel st

/-! ### Survival functions and KPIs, ems_core.py lines 96-103 and 346-371 -/

/-- `survival_cardic_arrest` (name as in the source), ems_core.py lines
96-99: sc = 1 / (1 + exp(-0.26 + 0.139 * Tr)) with Tr the response time in
minutes. -/
noncomputable def survival_cardic_arrest (response_time_sec : ℚ) : ℝ :=
  1 / (1 + Real.exp (-(26 / 100) + (139 / 1000) * ((response_time_sec : ℝ) / 60)))

/-- `survival_catA`, ems_core.py lines 101-103: 1 for Tr ≤ 8 min else 0. -/
def survival_catA (response_time_sec : ℚ) : ℝ :=
  if response_time_sec ≤ 8 * 60 then 1 else 0

/-- The accumulation loop of `_kpis` (ems_core.py lines 347-361): over the
calls, count served cardiac and catA calls and sum their survival values.
Returns (gamma, delta, sum_sc, sum_sa). -/
noncomputable def kpisAcc (rts : List (ℕ × ℚ)) : List Call → ℕ × ℕ × ℝ × ℝ
  | [] => (0, 0, 0, 0)
  | c :: cs =>
    let r := kpisAcc rts cs
    match alookup rts c.call_id with
    | none => r
    | some rt =>
      if c.category = "cardiac" then (r.1 + 1, r.2.1, r.2.2.1 + survival_cardic_arrest rt, r.2.2.2)
      else if c.category = "catA" then (r.1, r.2.1 + 1, r.2.2.1, r.2.2.2 + survival_catA rt)
      else r

/-- KPI result of a run: the objective eta_s plus diagnostic counts
(ems_core.py lines 367-371 return them as floats). -/
structure KPI where
  eta_s : ℝ
  cardiac_calls : ℕ
  catA_calls : ℕ

/-- `Simulation._kpis`, ems_core.py lines 346-371: eta_s = (2·sum_sc +
sum_sa) / (2·gamma + delta), with the denominator replaced by 1 when it is
not positive. -/
noncomputable def kpis (st : SimState) : KPI :=
  let r := kpisAcc st.response_times st.calls
  let gamma := r.1
  let delta := r.2.1
  let num : ℝ := 2 * r.2.2.1 + r.2.2.2
  let den : ℝ := if 0 < 2 * (gamma : ℝ) + (delta : ℝ) then 2 * (gamma : ℝ) + (delta : ℝ) else 1
  { eta_s := num / den, cardiac_calls := gamma, catA_calls := delta }

/-- `Simulation.run`, ems_core.py lines 144-161: run both phases, then
compute the KPIs. -/
noncomputable def simRun (tr : Travel) (calls : List Call) (stations : List (ℕ × Pos))
    (vehicles : List (ℕ × Vehicle)) (period : ℚ) (t_start t_end warmup_buffer : ℚ)
    (fuel : ℕ) : KPI :=
  kpis (simRunState tr calls stations vehicles period t_start t_end warmup_buffer fuel)

/-! ### build_vehicles_from_allocation, ems_core.py lines 377-393 -/

/-- Per-station vehicle counts; the source stores them as a dict
`{"A": nA, "R": nR}` read with `.get(kind, 0)`. -/
structure Counts where
  a : ℕ
  r : ℕ
deriving DecidableEq, Repr

/-- `n` vehicles of kind `k` homed at `sid`, keyed consecutively from
`start` (the inner `for _ in range(...)` loops of the source). -/
def mkVehicles (start : ℕ) (n : ℕ) (sid : ℕ) (k : VKind) : List (ℕ × Vehicle) :=
  (List.range n).map fun i =>
    (start + i, { vehicle_id := start + i, kind := k, home_station_id := sid })

/-- The iteration over allocation items with a running vehicle-id counter. -/
def buildFrom (vid : ℕ) : List (ℕ × Counts) → List (ℕ × Vehicle)
  | [] => []
  | (sid, cnt) :: rest =>
    mkVehicles vid cnt.a sid .A ++ mkVehicles (vid + cnt.a) cnt.r sid .R ++
      buildFrom (vid + cnt.a + cnt.r) rest

/-- `build_vehicles_from_allocation`, ems_core.py lines 377-393. -/
def build_vehicles_from_allocation (allocation : List (ℕ × Counts)) : List (ℕ × Vehicle) :=
  buildFrom 0 allocation

/-! ### The chromosome codec, ga_opt.py lines 20-85 -/

/-- Python 3's `round` (banker's rounding, halves to even); `int(round(x))`
in the source is exactly this since `round` already returns an int. -/
def pyRound (x : ℚ) : ℤ :=
  let n := ⌊x⌋
  if x - n < 1 / 2 then n
  else if (1 : ℚ) / 2 < x - n then n + 1
  else if 2 ∣ n then n else n + 1

/-- Python list indexing `l[i]`: non-negative indices from the front,
negative indices from the back, IndexError (None here) otherwise. -/
def pyIdx {α : Type} (l : List α) (i : ℤ) : Option α :=
  if 0 ≤ i then l.get? i.toNat
  else if -(l.length : ℤ) ≤ i then l.get? (l.length - (-i).toNat) else none

/-- The configuration fields of GAOptimizer that `_decode` reads,
ga_opt.py lines 21-50. -/
structure GACfg where
  n_rows : ℤ
  n_cols : ℤ
  stations_fixed : List (ℕ × Pos)
  movable_station_ids : List ℕ
  total_vehicles : ℕ
  fleet_ratio_fixed : Option (ℤ × ℤ)

/-- Chromosome length, ga_opt.py line 50:
2·n + (0 if fleet_ratio_fixed else 1) + m. -/
def chromLen (cfg : GACfg) : ℕ :=
  2 * cfg.movable_station_ids.length +
    (if cfg.fleet_ratio_fixed.isSome then 0 else 1) + cfg.total_vehicles

/-- Decode step 1, ga_opt.py lines 54-60: overwrite each movable station
with grid coordinates decoded from two genes.  Returns the station dict and
the unread rest of the chromosome; a missing gene is Python's IndexError. -/
def decodeStations (n_rows n_cols : ℤ) :
    List ℕ → List (ℕ × Pos) → List ℚ → Option (List (ℕ × Pos) × List ℚ)
  | [], sts, rest => some (sts, rest)
  | sid :: sids, sts, g1 :: g2 :: rest =>
    let r := pyRound (g1 * ((n_rows : ℚ) - 1))
    let c := pyRound (g2 * ((n_cols : ℚ) - 1))
    decodeStations n_rows n_cols sids (dictSet sts sid (r, c)) rest
  | _ :: _, _, _ => none

/-- Add one vehicle of the given kind to a station's bucket
(`alloc_counts[station_ids[s_idx]]["A"] += 1`, ga_opt.py lines 80 and 83). -/
def bumpCount (k : VKind) : List (ℕ × Counts) → ℕ → List (ℕ × Counts)
  | [], _ => []
  | (sid, cnt) :: t, key =>
    if sid = key then
      (sid, match k with | .A => { cnt with a := cnt.a + 1 } | .R => { cnt with r := cnt.r + 1 }) :: t
    else (sid, cnt) :: bumpCount k t key

/-- Decode step 3 for one vehicle class, ga_opt.py lines 78-83: each gene
selects a station index by `int(round(g * (N - 1)))`, indexed with Python
list semantics. -/
def decodeAlloc (ids : List ℕ) (k : VKind) :
    ℕ → List ℚ → List (ℕ × Counts) → Option (List (ℕ × Counts) × List ℚ)
  | 0, rest, al => some (al, rest)
  | n + 1, g :: rest, al =>
    match pyIdx ids (pyRound (g * ((ids.length : ℚ) - 1))) with
    | none => none
    | some sid => decodeAlloc ids k n rest (bumpCount k al sid)
  | _ + 1, [], _ => none

/-- `GAOptimizer._decode`, ga_opt.py lines 52-85.  Genes are consumed left
to right; extra genes beyond the layout are ignored, and a missing gene is
an IndexError (None). -/
def decode (cfg : GACfg) (chrom : List ℚ) : Option (List (ℕ × Pos) × List (ℕ × Counts)) :=
  match decodeStations cfg.n_rows cfg.n_cols cfg.movable_station_ids cfg.stations_fixed chrom with
  | none => none
  | some (stations, rest) =>
    let m := cfg.total_vehicles
    let ratio : Option (ℤ × ℤ × List ℚ) :=
      match cfg.fleet_ratio_fixed with
      | some (a, b) => some (a, b, rest)
      | none =>
        match rest with
        | [] => none
        | g :: rest' =>
          let nA := max 0 (min (m : ℤ) (pyRound (g * (m : ℚ))))
          some (nA, (m : ℤ) - nA, rest')
    match ratio with
    | none => none
    | some (nA, nR, rest') =>
      let station_ids := stations.map Prod.fst
      let alloc0 := station_ids.map fun sid => (sid, ({ a := 0, r := 0 } : Counts))
      match decodeAlloc station_ids .A nA.toNat rest' alloc0 with
      | none => none
      | some (al1, rest'') =>
        match decodeAlloc station_ids .R nR.toNat rest'' al1 with
        | none => none
        | some (al2, _) => some (stations, al2)

/-! ### The genetic search loop's best tracking, ga_opt.py lines 151-193

The population updates (selection, crossover, mutation, elitism) draw from
Python's global `random`; they are abstracted as an arbitrary `step`
function from the generation index and current population/fitness to the
next population, which covers every realisation of the randomness.  The
fitness function is abstract too (`_fitness` is deterministic, so
re-evaluations agree).  What remains is exactly the best-tracking skeleton
of `run`: lines 153-157 (initial best) and 184-191 (per-generation update).
-/

/-- `max(range(len(F)), key=lambda i: F[i])`: first index of the maximum. -/
def argmaxIdx (F : List ℚ) : ℕ :=
  (List.range F.length).foldl (fun acc i => if F.getD acc 0 < F.getD i 0 then i else acc) 0

/-- One pass of ga_opt.py lines 159-191 with the population update
abstracted: produce the next population, evaluate it, and update the
tracked best on strict improvement (line 189). -/
def gaLoop (fit : List ℚ → ℚ) (step : ℕ → List (List ℚ) → List ℚ → List (List ℚ)) :
    ℕ → ℕ → List (List ℚ) × List ℚ × List ℚ × ℚ → List ℚ × ℚ
  | 0, _, s => (s.2.2.1, s.2.2.2)
  | n + 1, g, (P, F, best_ch, best_fit) =>
    let P' := step g P F
    let F' := P'.map fit
    let idx := argmaxIdx F'
    let s' :=
      if best_fit < F'.getD idx 0 then (P', F', P'.getD idx [], F'.getD idx 0)
      else (P', F', best_ch, best_fit)
    gaLoop fit step n (g + 1) s'

/-- `GAOptimizer.run`, ga_opt.py lines 151-193, with the initial population
given and the stochastic population update abstracted as `step`. -/
def gaRun (fit : List ℚ → ℚ) (step : ℕ → List (List ℚ) → List ℚ → List (List ℚ))
    (P0 : List (List ℚ)) (generations : ℕ) : List ℚ × ℚ :=
  let F0 := P0.map fit
  let idx := argmaxIdx F0
  gaLoop fit step generations 0 (P0, F0, P0.getD idx [], F0.getD idx 0)

/-- The population of each generation (generation 0 is the initial one). -/
def popSeq (fit : List ℚ → ℚ) (step : ℕ → List (List ℚ) → List ℚ → List (List ℚ))
    (P0 : List (List ℚ)) : ℕ → List (List ℚ)
  | 0 => P0
  | g + 1 => step g (popSeq fit step P0 g) ((popSeq fit step P0 g).map fit)

/-- All fitness values evaluated in generations 0..g. -/
def allFits (fit : List ℚ → ℚ) (step : ℕ → List (List ℚ) → List ℚ → List (List ℚ))
    (P0 : List (List ℚ)) (g : ℕ) : List ℚ :=
  (List.range (g + 1)).flatMap fun i => (popSeq fit step P0 i).map fit

/-- Maximum of a fitness list (left fold, as Python's max). -/
def listMax : List ℚ → ℚ
  | [] => 0
  | x :: xs => xs.foldl max x

/-! ### Concrete instances used to exercise the definitions

The travel model is an external collaborator, so concrete scenarios may use
any instance of the contract; `ztr` is the simplest one (zero travel time
everywhere, one-step routes). -/

/-- A travel model with zero travel times; trivially monotone and
non-negative. -/
def ztr : Travel := ⟨fun _ _ _ _ => 0, fun _ b => [b]⟩

/-- One station at the origin. -/
def stations1 : List (ℕ × Pos) := [(0, ((0 : ℤ), (0 : ℤ)))]

/-- One idle ambulance homed at station 0. -/
def veh1 : List (ℕ × Vehicle) := [(0, { vehicle_id := 0, kind := .A, home_station_id := 0 })]

/-- A call at the origin needing `nA` ambulances, with the given arrival
time, dispatch delay, scene, hospital and handover durations. -/
def mkCall (id : ℕ) (t d sc ho ha : ℚ) (nA : ℤ) : Call :=
  { call_id := id, t_call := t, dispatch_delay := d, scene_time := sc, hospital_time := ho,
    handover_time := ha, need_ambulances := nA, need_rrc := 0, category := "catC",
    loc_scene := (0, 0), loc_hospital := (0, 0) }

/-- Warm-up call 1: arrives at t=5000 (inside the warm-up window of
`warmupRun`), takes the only ambulance for 100 s of scene time. -/
def callW : Call := mkCall 1 5000 0 100 0 0 1

/-- Warm-up call 2: arrives at t=5001 while the ambulance is busy, so it is
wait-listed; it is served from the queue at t=5100. -/
def callB : Call := mkCall 2 5001 0 100 0 0 1

/-- A run whose two calls both arrive during the warm-up window
[4600, 10000) of run(t_start=10000, t_end=20000, warmup_buffer=5400). -/
def warmupRun : SimState := simRunState ztr [callW, callB] stations1 veh1 120 10000 20000 5400 20

/-- Call 1 of the clock-regression run: non-negative dispatch delay and
scene/hospital durations, but a negative handover time of -2000 s. -/
def callV : Call := mkCall 1 0 0 150 5 (-2000) 1

/-- Call 2 of the clock-regression run: arrives at t=100 while the ambulance
is busy with call 1, so it is wait-listed; everything about it is
non-negative. -/
def callX : Call := mkCall 2 100 0 0 0 0 1

/-- A measured-window run ([0, 1000), no warm-up) in which call 1's negative
handover time schedules JOB_COMPLETE at t=-1845, the clock regresses, and
wait-listed call 2 is then served at a time before its own arrival. -/
def regressRun : SimState := simRunState ztr [callV, callX] stations1 veh1 120 0 1000 0 30

/-- A call needing two ambulances (more than the single idle one). -/
def callTwoA : Call := mkCall 9 0 0 0 0 0 2

/-- The initial state with one idle ambulance and no pending events. -/
def oneAmbSt : SimState := initSim [] stations1 veh1 120

/-- A state whose only ambulance is busy, so dispatch finds no idle
vehicle. -/
def busyAmbSt : SimState :=
  initSim [] stations1
    [(0, { vehicle_id := 0, kind := .A, home_station_id := 0, busy := true })] 120

/-- A codec configuration: no movable stations, one station, one vehicle,
fixed fleet ratio (1, 0); its chromosome length is 1. -/
def cfgLen1 : GACfg :=
  { n_rows := 1, n_cols := 1, stations_fixed := [(0, ((0 : ℤ), (0 : ℤ)))],
    movable_station_ids := [], total_vehicles := 1, fleet_ratio_fixed := some (1, 0) }

/-- The same configuration but with the inconsistent fixed fleet ratio
(0, 0): its chromosome length is still 1 = total_vehicles. -/
def cfgZeroRatio : GACfg := { cfgLen1 with fleet_ratio_fixed := some (0, 0) }

/-! ### Invariants of the simulation loop (used to settle the response-time
claims) -/

/-- Payload facts the loop maintains: a CALL_ARRIVE event is scheduled at
its call's own arrival time and carries a call of the run; a SCENE_DEPART
event carries a call of the run. -/
def payloadOk (calls : List Call) (ev : Event) : Prop :=
  match ev.data with
  | .callArrive c => c ∈ calls ∧ ev.time = c.t_call
  | .sceneDepart c => c ∈ calls
  | .jobComplete _ _ => True
  | .locUpdate _ => True

/-- Every call has non-negative dispatch delay and service durations. -/
def callsNN (calls : List Call) : Prop :=
  ∀ c ∈ calls, 0 ≤ c.dispatch_delay ∧ 0 ≤ c.scene_time ∧ 0 ≤ c.hospital_time ∧
    0 ≤ c.handover_time

instance callsNN.dec (calls : List Call) : Decidable (callsNN calls) := by
  unfold callsNN; infer_instance

/-- The travel model returns non-negative travel times. -/
def travelNN (tr : Travel) : Prop :=
  ∀ a b t k, 0 ≤ tr.travel_time a b t k

/-- The event queue is a heap of well-formed events all scheduled no earlier
than `now`. -/
def qInv (calls : List Call) (now : ℚ) (q : List Event) : Prop :=
  heapInvP q ∧ (∀ ev ∈ q, payloadOk calls ev) ∧ (∀ ev ∈ q, now ≤ ev.time)

/-- Claim C5's per-record property: every ghost record (call, first-arrival
time, recorded value) satisfies value = arrival − t_call and is
non-negative, and every response_times entry is backed by a ghost record
for its call id. -/
def rtsOk (st : SimState) : Prop :=
  (∀ g ∈ st.ghost, g.2.2 = g.2.1 - g.1.t_call ∧ 0 ≤ g.2.2) ∧
  (∀ p ∈ st.response_times, ∃ g ∈ st.ghost, g.1.call_id = p.1 ∧ g.2.2 = p.2)

/-- Wait-listed call ids resolve (via the id lookup `_check_queue` uses) to
calls that arrived no later than `now`. -/
def waitOk (st : SimState) : Prop :=
  ∀ cid ∈ st.wait_q, ∃ c, idToCall st.calls cid = some c ∧ c.t_call ≤ st.now

/-- The full loop invariant of the simulation. -/
def simInv (st : SimState) : Prop :=
  heapInvP st.event_q ∧
  (∀ ev ∈ st.event_q, payloadOk st.calls ev) ∧
  waitOk st ∧
  (st.wait_q = [] ∨ ∀ ev ∈ st.event_q, st.now ≤ ev.time) ∧
  rtsOk st

/-- States reachable from `st0` by handler steps that neither touch the
statistics and queues nor move the clock, and keep the event queue
well-formed (used for the travel-start folds inside the handlers). -/
def stableTo (st0 s : SimState) : Prop :=
  s.calls = st0.calls ∧ s.loc_update_period = st0.loc_update_period ∧ s.now = st0.now ∧
  s.wait_q = st0.wait_q ∧ s.response_times = st0.response_times ∧ s.ghost = st0.ghost ∧
  qInv st0.calls st0.now s.event_q

/-- What one event handler guarantees about its output relative to its
input: the call list, tick period and clock are unchanged, the event queue
stays a well-formed heap of future events, the recorded response times stay
correct, and any new wait-list entry is a call that arrived by now. -/
def handlerOK (st s : SimState) : Prop :=
  s.calls = st.calls ∧ s.loc_update_period = st.loc_update_period ∧ s.now = st.now ∧
  qInv st.calls st.now s.event_q ∧ rtsOk s ∧
  (∀ cid ∈ s.wait_q, cid ∈ st.wait_q ∨
    ∃ c, idToCall st.calls cid = some c ∧ c.t_call ≤ st.now)

/-- The hypotheses under which a handler runs inside the loop: non-negative
travel model, non-negative call data, distinct call ids, non-negative tick
period, a well-formed queue of future events, a well-formed wait list, and
correct statistics. -/
def handlerPre (tr : Travel) (st : SimState) : Prop :=
  travelNN tr ∧ callsNN st.calls ∧ (st.calls.map Call.call_id).Nodup ∧
  0 ≤ st.loc_update_period ∧ qInv st.calls st.now st.event_q ∧ waitOk st ∧ rtsOk st

/-! ## Theorems

### Heap lemmas: heapq's pop really removes and returns a minimal-time event
and push/pop preserve the heap invariant. -/

theorem hparent_lt {i : ℕ} (h : 0 < i) : hparent i < i := by
  unfold hparent; omega

theorem getD_set_self {l : List Event} {i : ℕ} {x d : Event} (h : i < l.length) :
    (l.set i x).getD i d = x := by
  rw [List.getD_eq_getElem?_getD, List.getElem?_set_self h]; rfl

theorem getD_set_ne {l : List Event} {i j : ℕ} {x d : Event} (h : i ≠ j) :
    (l.set i x).getD j d = l.getD j d := by
  rw [List.getD_eq_getElem?_getD, List.getElem?_set_ne h, ← List.getD_eq_getElem?_getD]

/-- Overwriting slot i exchanges the old entry for the new one, as
multisets. -/
theorem cons_set_eq {l : List Event} {i : ℕ} {x : Event} (h : i < l.length) :
    (l.getD i default) ::ₘ ((l.set i x : List Event) : Multiset Event) =
      x ::ₘ (l : Multiset Event) := by
  induction l generalizing i with
  | nil => simp at h
  | cons a t ih =>
    cases i with
    | zero =>
      rw [List.getD_cons_zero, List.set_cons_zero, ← Multiset.cons_coe, ← Multiset.cons_coe]
      exact Multiset.cons_swap a x (t : Multiset Event)
    | succ n =>
      have hn : n < t.length := by simpa using h
      rw [List.getD_cons_succ, List.set_cons_succ, ← Multiset.cons_coe, ← Multiset.cons_coe,
        Multiset.cons_swap, ih hn]
      exact Multiset.cons_swap a x (t : Multiset Event)

theorem sdGo_length (s : ℕ) (x : Event) :
    ∀ (fuel : ℕ) (h : List Event) (p : ℕ), (sdGo s x fuel h p).length = h.length := by
  intro fuel
  induction fuel with
  | zero => intro h p; simp [sdGo]
  | succ n ih =>
    intro h p
    simp only [sdGo]
    split
    · split
      · rw [ih]; simp
      · simp
    · simp

theorem sdGo_mset (s : ℕ) (x : Event) :
    ∀ (fuel : ℕ) (h : List Event) (p : ℕ), p < h.length → p ≤ fuel →
      (h.getD p default) ::ₘ ((sdGo s x fuel h p : List Event) : Multiset Event) =
        x ::ₘ (h : Multiset Event) := by
  intro fuel
  induction fuel with
  | zero =>
    intro h p hp hf
    simp only [sdGo]
    exact cons_set_eq hp
  | succ n ih =>
    intro h p hp hf
    simp only [sdGo]
    split
    · rename_i hsp
      split
      · rename_i hlt
        have hpp : hparent p < p := hparent_lt (Nat.lt_of_le_of_lt (Nat.zero_le s) hsp)
        have h1 : hparent p < (h.set p (h.getD (hparent p) default)).length := by
          simpa using Nat.lt_trans hpp hp
        have h2 : hparent p ≤ n := by omega
        have hrec := ih (h.set p (h.getD (hparent p) default)) (hparent p) h1 h2
        rw [getD_set_ne (Nat.ne_of_gt hpp)] at hrec
        have hkey := cons_set_eq (l := h) (i := p) (x := h.getD (hparent p) default) hp
        set par := h.getD (hparent p) default with hpar
        set hp0 := h.getD p default with hhp0
        set res := sdGo s x n (h.set p par) (hparent p) with hres
        have e1 : par ::ₘ (hp0 ::ₘ ((res : List Event) : Multiset Event)) =
            par ::ₘ (x ::ₘ (h : Multiset Event)) := by
          calc par ::ₘ (hp0 ::ₘ ((res : List Event) : Multiset Event))
              = hp0 ::ₘ (par ::ₘ ((res : List Event) : Multiset Event)) :=
                Multiset.cons_swap _ _ _
            _ = hp0 ::ₘ (x ::ₘ ((h.set p par : List Event) : Multiset Event)) := by rw [hrec]
            _ = x ::ₘ (hp0 ::ₘ ((h.set p par : List Event) : Multiset Event)) :=
                Multiset.cons_swap _ _ _
            _ = x ::ₘ (par ::ₘ (h : Multiset Event)) := by rw [hkey]
            _ = par ::ₘ (x ::ₘ (h : Multiset Event)) := Multiset.cons_swap _ _ _
        exact (Multiset.cons_inj_right _).mp e1
      · exact cons_set_eq hp
    · exact cons_set_eq hp

theorem sdGo_mem (s : ℕ) (x : Event) (fuel : ℕ) (h : List Event) (p : ℕ)
    (hp : p < h.length) (hf : p ≤ fuel) {y : Event} (hy : y ∈ sdGo s x fuel h p) :
    y ∈ h ∨ y = x := by
  have hm := sdGo_mset s x fuel h p hp hf
  have : y ∈ (h.getD p default) ::ₘ ((sdGo s x fuel h p : List Event) : Multiset Event) :=
    Multiset.mem_cons_of_mem (by simpa using hy)
  rw [hm] at this
  rcases Multiset.mem_cons.mp this with h1 | h1
  · right; exact h1
  · left; simpa using h1

theorem hparent_children {p j : ℕ} (hj : 0 < j) :
    hparent j = p ↔ (j = 2 * p + 1 ∨ j = 2 * p + 2) := by
  unfold hparent; omega

/-- Placing the bubbled item at its final slot yields a heap. -/
theorem sdPlace {h : List Event} {p : ℕ} {x : Event} (hp : p < h.length)
    (pre : sdPre h p x)
    (hroot : p = 0 ∨ (h.getD (hparent p) default).time ≤ x.time) :
    heapInvP (h.set p x) := by
  obtain ⟨qa, qb, qc⟩ := pre
  simp only [pairLe] at qa qc
  intro j hj hj0
  rw [List.length_set] at hj
  by_cases hjp : j = p
  · subst hjp
    have hpar : hparent j < j := hparent_lt hj0
    rcases hroot with h0 | hle
    · omega
    · rw [getD_set_ne (Nat.ne_of_lt hpar).symm, getD_set_self hp]
      exact hle
  · rw [getD_set_ne (fun hh => hjp hh.symm)]
    by_cases hpj : hparent j = p
    · rw [hpj, getD_set_self hp]
      exact qb j hj hj0 hpj
    · rw [getD_set_ne (fun hh => hpj hh.symm)]
      exact qa j hj hj0 hjp hpj

/-- One bubble-up step preserves the sift-down precondition. -/
theorem sdPre_step {h : List Event} {p : ℕ} {x : Event} (hp : p < h.length) (hp0 : 0 < p)
    (pre : sdPre h p x)
    (hlt : x.time < (h.getD (hparent p) default).time) :
    sdPre (h.set p (h.getD (hparent p) default)) (hparent p) x := by
  obtain ⟨qa, qb, qc⟩ := pre
  simp only [pairLe] at qa qc
  have hpp : hparent p < p := hparent_lt hp0
  refine ⟨?_, ?_, ?_⟩
  · -- away from the new hole the ordering holds
    intro j hj hj0 hjpp hpjpp
    rw [List.length_set] at hj
    simp only [pairLe]
    by_cases hjp : j = p
    · exfalso; exact hpjpp (by rw [hjp])
    · rw [getD_set_ne (fun hh => hjp hh.symm)]
      by_cases hpj : hparent j = p
      · rw [hpj, getD_set_self hp]
        exact qc hp0 j hj hj0 hpj
      · rw [getD_set_ne (fun hh => hpj hh.symm)]
        exact qa j hj hj0 hjp hpj
  · -- x is below the new hole's children
    intro j hj hj0 hpj
    rw [List.length_set] at hj
    by_cases hjp : j = p
    · subst hjp
      rw [getD_set_self hp]
      exact le_of_lt hlt
    · rw [getD_set_ne (fun hh => hjp hh.symm)]
      have hj2 := qa j hj hj0 hjp (by omega)
      rw [hpj] at hj2
      exact le_of_lt (lt_of_lt_of_le hlt hj2)
  · -- the grandparent is below the new hole's children
    intro hpp0 j hj hj0 hpj
    rw [List.length_set] at hj
    simp only [pairLe]
    have hgp : hparent (hparent p) < hparent p := hparent_lt hpp0
    have hgpne : hparent (hparent p) ≠ p := by omega
    rw [getD_set_ne (Ne.symm hgpne)]
    have h1 : (h.getD (hparent (hparent p)) default).time ≤
        (h.getD (hparent p) default).time :=
      qa (hparent p) (by omega) hpp0 (by omega) (by omega)
    by_cases hjp : j = p
    · subst hjp
      rw [getD_set_self hp]
      exact h1
    · rw [getD_set_ne (fun hh => hjp hh.symm)]
      have h2 : (h.getD (hparent j) default).time ≤ (h.getD j default).time :=
        qa j hj hj0 hjp (by omega)
      rw [hpj] at h2
      exact le_trans h1 h2

/-- The sift-down loop, started with enough fuel from a state satisfying its
precondition, produces a heap. -/
theorem sdGo_inv : ∀ (fuel : ℕ) (h : List Event) (p : ℕ) (x : Event),
    p < h.length → p ≤ fuel → sdPre h p x → heapInvP (sdGo 0 x fuel h p) := by
  intro fuel
  induction fuel with
  | zero =>
    intro h p x hp hf pre
    have hp0 : p = 0 := Nat.le_zero.mp hf
    simp only [sdGo]
    exact sdPlace hp pre (Or.inl hp0)
  | succ n ih =>
    intro h p x hp hf pre
    simp only [sdGo]
    split
    · rename_i hsp
      split
      · rename_i hlt
        have hp0 : 0 < p := hsp
        have hpp : hparent p < p := hparent_lt hp0
        exact ih (h.set p (h.getD (hparent p) default)) (hparent p) x
          (by rw [List.length_set]; omega) (by omega) (sdPre_step hp hp0 pre hlt)
      · rename_i hnlt
        exact sdPlace hp pre (Or.inr (le_of_not_lt hnlt))
    · rename_i hnsp
      exact sdPlace hp pre (Or.inl (by omega))

theorem getD_append_left {l : List Event} {e d : Event} {j : ℕ} (hj : j < l.length) :
    (l ++ [e]).getD j d = l.getD j d := by
  rw [List.getD_eq_getElem?_getD, List.getElem?_append_left hj, ← List.getD_eq_getElem?_getD]

/-- heappush preserves the heap invariant (CPython heappush appends and
sifts down from the new last slot). -/
theorem heappush_inv {h : List Event} (hinv : heapInvP h) (e : Event) :
    heapInvP (heappush h e) := by
  unfold heappush
  apply sdGo_inv
  · simp
  · exact le_refl _
  · refine ⟨?_, ?_, ?_⟩
    · intro j hj hj0 hjp hpjp
      simp only [List.length_append, List.length_singleton] at hj
      have hjlt : j < h.length := by omega
      have hplt : hparent j < h.length := Nat.lt_trans (hparent_lt hj0) hjlt
      simp only [pairLe]
      rw [getD_append_left hjlt, getD_append_left hplt]
      exact hinv j hjlt hj0
    · intro j hj hj0 hpj
      exfalso
      have := hparent_lt hj0
      simp only [List.length_append, List.length_singleton] at hj
      omega
    · intro hp0 j hj hj0 hpj
      exfalso
      have := hparent_lt hj0
      simp only [List.length_append, List.length_singleton] at hj
      omega

theorem heappush_length (h : List Event) (e : Event) :
    (heappush h e).length = h.length + 1 := by
  unfold heappush
  rw [sdGo_length]
  simp

/-- heappush adds exactly the pushed event, as multisets. -/
theorem heappush_mset (h : List Event) (e : Event) :
    ((heappush h e : List Event) : Multiset Event) = e ::ₘ (h : Multiset Event) := by
  have hlen : h.length < (h ++ [e]).length := by simp
  have hm := sdGo_mset 0 e h.length (h ++ [e]) h.length hlen (le_refl _)
  have hgd : (h ++ [e]).getD h.length default = e := by
    rw [List.getD_eq_getElem?_getD]
    simp
  rw [hgd] at hm
  have hm2 := (Multiset.cons_inj_right e).mp hm
  unfold heappush
  rw [hm2]
  exact Multiset.coe_eq_coe.mpr (List.perm_append_singleton e h)

theorem heappush_mem {h : List Event} {e y : Event} (hy : y ∈ heappush h e) :
    y ∈ h ∨ y = e := by
  have : y ∈ ((heappush h e : List Event) : Multiset Event) := by simpa using hy
  rw [heappush_mset] at this
  rcases Multiset.mem_cons.mp this with h1 | h1
  · right; exact h1
  · left; simpa using h1

/-- The root of a heap is minimal. -/
theorem root_min {l : List Event} (hinv : heapInvP l) :
    ∀ j, j < l.length → (l.getD 0 default).time ≤ (l.getD j default).time := by
  intro j
  induction j using Nat.strong_induction_on with
  | _ j ih =>
    intro hj
    rcases Nat.eq_zero_or_pos j with h0 | h0
    · subst h0; exact le_refl _
    · have hpar : hparent j < j := hparent_lt h0
      exact le_trans (ih (hparent j) hpar (Nat.lt_trans hpar hj)) (hinv j hj h0)

theorem set_getD_self {l : List Event} {i : ℕ} (h : i < l.length) :
    l.set i (l.getD i default) = l := by
  induction l generalizing i with
  | nil => simp at h
  | cons a t ih =>
    cases i with
    | zero => simp
    | succ n =>
      simp only [List.getD_cons_succ, List.set_cons_succ]
      rw [ih (by simpa using h)]

/-- Writing the duplicated slot-c value into the hole and then overwriting
slot c is, as a multiset, the same as writing directly into the hole. -/
theorem set_set_mset {h : List Event} {p c : ℕ} (hp : p < h.length) (hc : c < h.length)
    (hne : p ≠ c) (x : Event) :
    (((h.set p (h.getD c default)).set c x : List Event) : Multiset Event) =
      ((h.set p x : List Event) : Multiset Event) := by
  have e1 := cons_set_eq (l := h.set p (h.getD c default)) (i := c) (x := x)
    (by rw [List.length_set]; exact hc)
  rw [getD_set_ne hne] at e1
  have e2 := cons_set_eq (l := h) (i := p) (x := h.getD c default) hp
  have e3 := cons_set_eq (l := h) (i := p) (x := x) hp
  have key : (h.getD p default) ::ₘ ((h.getD c default) ::ₘ
      (((h.set p (h.getD c default)).set c x : List Event) : Multiset Event)) =
      (h.getD p default) ::ₘ ((h.getD c default) ::ₘ
      ((h.set p x : List Event) : Multiset Event)) := by
    calc (h.getD p default) ::ₘ ((h.getD c default) ::ₘ
          (((h.set p (h.getD c default)).set c x : List Event) : Multiset Event))
        = (h.getD p default) ::ₘ (x ::ₘ
            ((h.set p (h.getD c default) : List Event) : Multiset Event)) := by rw [e1]
      _ = x ::ₘ ((h.getD p default) ::ₘ
            ((h.set p (h.getD c default) : List Event) : Multiset Event)) :=
          Multiset.cons_swap _ _ _
      _ = x ::ₘ ((h.getD c default) ::ₘ (h : Multiset Event)) := by rw [e2]
      _ = (h.getD c default) ::ₘ (x ::ₘ (h : Multiset Event)) := Multiset.cons_swap _ _ _
      _ = (h.getD c default) ::ₘ ((h.getD p default) ::ₘ
            ((h.set p x : List Event) : Multiset Event)) := by rw [e3]
      _ = (h.getD p default) ::ₘ ((h.getD c default) ::ₘ
            ((h.set p x : List Event) : Multiset Event)) := Multiset.cons_swap _ _ _
  exact (Multiset.cons_inj_right _).mp ((Multiset.cons_inj_right _).mp key)

/-- One walk-down step of the sift-up loop keeps every pair away from the
hole ordered, provided the promoted child is the smaller one. -/
theorem suPre_step {h : List Event} {p c : ℕ} (hp : p < h.length) (hc : c < h.length)
    (hcc : c = 2 * p + 1 ∨ c = 2 * p + 2)
    (hmin : ∀ j, j < h.length → (j = 2 * p + 1 ∨ j = 2 * p + 2) →
      (h.getD c default).time ≤ (h.getD j default).time)
    (pre : suPre h p) :
    suPre (h.set p (h.getD c default)) c := by
  obtain ⟨ra, rc⟩ := pre
  simp only [pairLe] at ra rc
  have hpc : p < c := by omega
  have hc0 : 0 < c := by omega
  have hpcpar : hparent c = p := (hparent_children hc0).mpr hcc
  constructor
  · intro j hj hj0 hjc hpjc
    rw [List.length_set] at hj
    simp only [pairLe]
    by_cases hjp : j = p
    · subst hjp
      have hpj0 : 0 < j := hj0
      have hpar : hparent j < j := hparent_lt hpj0
      rw [getD_set_ne (Nat.ne_of_lt hpar).symm, getD_set_self hp]
      exact rc hpj0 c hc hc0 hpcpar
    · rw [getD_set_ne (fun hh => hjp hh.symm)]
      by_cases hpjp : hparent j = p
      · rw [hpjp, getD_set_self hp]
        exact hmin j hj ((hparent_children hj0).mp hpjp)
      · rw [getD_set_ne (fun hh => hpjp hh.symm)]
        exact ra j hj hj0 hjp hpjp
  · intro _ j hj hj0 hpj
    rw [List.length_set] at hj
    simp only [pairLe]
    have hcj : c < j := by
      have := (hparent_children hj0).mp hpj
      omega
    have hjp : j ≠ p := by omega
    rw [hpcpar, getD_set_self hp, getD_set_ne (fun hh => hjp hh.symm)]
    have h2 := ra j hj hj0 hjp (by omega)
    rw [hpj] at h2
    exact h2

/-- Specification of the sift-up walk-down loop: the length is preserved,
the final hole is an in-range leaf, overwriting the final hole is (as a
multiset) overwriting the original hole, and — from the walk-down
precondition — every pair not involving the final hole is ordered. -/
theorem suGo_spec : ∀ (fuel : ℕ) (h : List Event) (p : ℕ),
    p < h.length → h.length ≤ fuel + p →
    (suGo fuel h p).1.length = h.length ∧
    (suGo fuel h p).2 < h.length ∧
    h.length ≤ 2 * (suGo fuel h p).2 + 1 ∧
    (∀ x : Event, (((suGo fuel h p).1.set (suGo fuel h p).2 x : List Event) : Multiset Event)
        = ((h.set p x : List Event) : Multiset Event)) ∧
    (suPre h p →
      ∀ j, j < h.length → 0 < j → j ≠ (suGo fuel h p).2 →
        pairLe (suGo fuel h p).1 (hparent j) j) := by
  intro fuel
  induction fuel with
  | zero =>
    intro h p hp hlen
    omega
  | succ n ih =>
    intro h p hp hlen
    simp only [suGo]
    split
    · rename_i hcl
      -- a left child exists: promote the smaller child into the hole
      set c := if 2 * p + 1 + 1 < h.length ∧
          ¬ (h.getD (2 * p + 1) default).time < (h.getD (2 * p + 1 + 1) default).time then
          2 * p + 1 + 1 else 2 * p + 1 with hcdef
      have hcc : c = 2 * p + 1 ∨ c = 2 * p + 2 := by
        rw [hcdef]; split <;> omega
      have hc : c < h.length := by
        rw [hcdef]; split
        · rename_i hcond; omega
        · exact hcl
      have hpc : p < c := by omega
      have hne : p ≠ c := by omega
      have hmin : ∀ j, j < h.length → (j = 2 * p + 1 ∨ j = 2 * p + 2) →
          (h.getD c default).time ≤ (h.getD j default).time := by
        intro j hj hjc
        rw [hcdef]
        split
        · rename_i hcond
          rcases hjc with hj1 | hj2
          · subst hj1; exact le_of_not_lt hcond.2
          · subst hj2; exact le_refl _
        · rename_i hcond
          rcases hjc with hj1 | hj2
          · subst hj1; exact le_refl _
          · subst hj2
            rcases not_and_or.mp hcond with hlen2 | hlt
            · omega
            · exact le_of_lt (not_not.mp hlt)
      have hrec := ih (h.set p (h.getD c default)) c
        (by rw [List.length_set]; exact hc)
        (by rw [List.length_set]; omega)
      obtain ⟨r1, r2, r3, r4, r5⟩ := hrec
      rw [List.length_set] at r1 r2 r3
      refine ⟨r1, r2, r3, ?_, ?_⟩
      · intro x
        rw [r4 x, set_set_mset hp hc hne]
      · intro pre j hj hj0 hjfp
        exact r5 (suPre_step hp hc hcc hmin pre) j (by rw [List.length_set]; exact hj)
          hj0 hjfp
    · rename_i hncl
      -- no children: the hole is already a leaf
      refine ⟨rfl, hp, by omega, fun x => rfl, ?_⟩
      intro pre j hj hj0 hjp
      obtain ⟨ra, _⟩ := pre
      by_cases hpjp : hparent j = p
      · exfalso
        have := (hparent_children hj0).mp hpjp
        omega
      · exact ra j hj hj0 hjp hpjp

/-- CPython's full `_siftup` from the root restores the heap invariant. -/
theorem siftup_inv {h : List Event} (hp : 0 < h.length) (pre : suPre h 0) :
    heapInvP (siftup h 0) := by
  unfold siftup
  obtain ⟨r1, r2, r3, _r4, r5⟩ := suGo_spec h.length h 0 hp (by omega)
  apply sdGo_inv
  · rw [r1]; exact r2
  · exact le_refl _
  · refine ⟨?_, ?_, ?_⟩
    · intro j hj hj0 hjfp hpjfp
      rw [r1] at hj
      exact r5 pre j hj hj0 hjfp
    · intro j hj hj0 hpj
      exfalso
      rw [r1] at hj
      have := (hparent_children hj0).mp hpj
      omega
    · intro _ j hj hj0 hpj
      exfalso
      rw [r1] at hj
      have := (hparent_children hj0).mp hpj
      omega

/-- `_siftup` permutes the heap (no element is created or lost). -/
theorem siftup_mset {h : List Event} (hp : 0 < h.length) :
    ((siftup h 0 : List Event) : Multiset Event) = (h : Multiset Event) := by
  unfold siftup
  obtain ⟨r1, r2, _r3, r4, _r5⟩ := suGo_spec h.length h 0 hp (by omega)
  have hfp : (suGo h.length h 0).2 < (suGo h.length h 0).1.length := by rw [r1]; exact r2
  have hm := sdGo_mset 0 (h.getD 0 default) (suGo h.length h 0).2 (suGo h.length h 0).1
    (suGo h.length h 0).2 hfp (le_refl _)
  have hself := r4 ((suGo h.length h 0).1.getD (suGo h.length h 0).2 default)
  rw [set_getD_self hfp] at hself
  have hkey := cons_set_eq (l := h) (i := 0)
    (x := (suGo h.length h 0).1.getD (suGo h.length h 0).2 default) hp
  -- combine: cancel the duplicated entries
  have e1 : ((suGo h.length h 0).1.getD (suGo h.length h 0).2 default) ::ₘ
      ((sdGo 0 (h.getD 0 default) (suGo h.length h 0).2 (suGo h.length h 0).1
        (suGo h.length h 0).2 : List Event) : Multiset Event) =
      ((suGo h.length h 0).1.getD (suGo h.length h 0).2 default) ::ₘ (h : Multiset Event) := by
    calc ((suGo h.length h 0).1.getD (suGo h.length h 0).2 default) ::ₘ
        ((sdGo 0 (h.getD 0 default) (suGo h.length h 0).2 (suGo h.length h 0).1
          (suGo h.length h 0).2 : List Event) : Multiset Event)
        = (h.getD 0 default) ::ₘ (((suGo h.length h 0).1 : List Event) : Multiset Event) := hm
      _ = (h.getD 0 default) ::ₘ
          (((h.set 0 ((suGo h.length h 0).1.getD (suGo h.length h 0).2 default) :
            List Event)) : Multiset Event) := by rw [← hself]
      _ = ((suGo h.length h 0).1.getD (suGo h.length h 0).2 default) ::ₘ
          (h : Multiset Event) := hkey
  exact (Multiset.cons_inj_right _).mp e1

/-- heappop on a non-empty heap: the returned event is minimal in the
`Event.__lt__` order (time), it is removed (as a multiset the input equals
the output plus the returned event), and the remaining list is a heap. -/
theorem heappop_spec {l : List Event} (hinv : heapInvP l) {e : Event} {l' : List Event}
    (hpop : heappop l = some (e, l')) :
    (∀ y ∈ l, e.time ≤ y.time) ∧
    ((l : Multiset Event) = e ::ₘ (l' : Multiset Event)) ∧
    heapInvP l' := by
  unfold heappop at hpop
  cases hl : l.getLast? with
  | none => rw [hl] at hpop; simp at hpop
  | some lastelt =>
    rw [hl] at hpop
    obtain ⟨ys, hys⟩ := List.getLast?_eq_some_iff.mp hl
    have hdrop : l.dropLast = ys := by rw [hys]; exact List.dropLast_concat
    by_cases hre : l.dropLast.isEmpty
    · simp only [if_pos hre, Option.some_inj, Prod.mk.injEq] at hpop
      obtain ⟨he, hl'⟩ := hpop
      have hys0 : ys = [] := by
        rw [hdrop] at hre; exact List.isEmpty_iff.mp hre
      have hl1 : l = [lastelt] := by rw [hys, hys0]; rfl
      subst he
      refine ⟨?_, ?_, ?_⟩
      · intro y hy
        rw [hl1] at hy
        rcases List.mem_singleton.mp hy with rfl
        exact le_refl _
      · rw [← hl', hl1]; rfl
      · intro j hj hj0
        rw [← hl'] at hj
        simp at hj
    · simp only [if_neg hre, Option.some_inj, Prod.mk.injEq] at hpop
      obtain ⟨he, hl'⟩ := hpop
      have hrest : l.dropLast ≠ [] := fun hh => hre (by rw [hh]; rfl)
      have hrlen : 0 < l.dropLast.length := List.length_pos.mpr hrest
      have hlen : l.length = l.dropLast.length + 1 := by
        rw [hys]; simp [List.dropLast_concat]
      have h0len : 0 < (l.dropLast.set 0 lastelt).length := by
        rw [List.length_set]; exact hrlen
      -- reading inside dropLast is reading the original list
      have hread : ∀ j, j < l.dropLast.length →
          l.dropLast.getD j default = l.getD j default := by
        intro j hj
        rw [List.getD_eq_getElem?_getD, List.getD_eq_getElem?_getD, List.getElem?_dropLast,
          if_pos (by omega)]
      have hpre : suPre (l.dropLast.set 0 lastelt) 0 := by
        constructor
        · intro j hj hj0 hj00 hpj0
          rw [List.length_set] at hj
          simp only [pairLe]
          rw [getD_set_ne (fun hh => hpj0 hh.symm), getD_set_ne (fun hh => hj00 hh.symm)]
          have hpar : hparent j < j := hparent_lt hj0
          rw [hread j hj, hread (hparent j) (by omega)]
          exact hinv j (by omega) hj0
        · intro h00; exact absurd h00 (lt_irrefl 0)
      refine ⟨?_, ?_, ?_⟩
      · -- minimality: the returned event is the old root
        have hroot := root_min hinv
        have he0 : e = l.getD 0 default := by
          rw [← he, hread 0 hrlen]
        intro y hy
        obtain ⟨j, hj, hjy⟩ := List.mem_iff_getElem.mp hy
        have : l.getD j default = y := by
          rw [List.getD_eq_getElem?_getD, List.getElem?_eq_getElem hj, hjy]; rfl
        rw [he0, ← this]
        exact hroot j hj
      · -- the multiset equation
        have hsm : ((l' : List Event) : Multiset Event) =
            ((l.dropLast.set 0 lastelt : List Event) : Multiset Event) := by
          rw [← hl']; exact siftup_mset h0len
        have hce := cons_set_eq (l := l.dropLast) (i := 0) (x := lastelt) hrlen
        rw [he] at hce
        have hperm : (l : Multiset Event) = lastelt ::ₘ (l.dropLast : Multiset Event) := by
          conv_lhs => rw [hys]
          rw [hdrop]
          exact Multiset.coe_eq_coe.mpr (List.perm_append_singleton lastelt ys)
        rw [hperm, hsm, hce]
      · rw [← hl']
        exact siftup_inv h0len hpre

/-- C3 (amended): for every event-queue state satisfying the heap
invariant (which pushes preserve and the empty queue satisfies),
pop-earliest removes and returns an event whose time is minimal among all
queued events — `Event.__lt__` compares by time only, so minimality is in
time — the remaining queue is exactly the old queue minus that event (as a
multiset), and it is again a heap; pushing preserves the invariant.  Ties
between equal-time events are resolved by the heap's array layout, not by a
per-event secondary key (see the accompanying counterexample). -/
theorem pop_earliest_spec (h h' : List Event) (e x : Event)
    (hinv : heapInvP h) (hpop : heappop h = some (e, h')) :
    (∀ y ∈ h, e.time ≤ y.time) ∧
    ((h : Multiset Event) = e ::ₘ (h' : Multiset Event)) ∧
    heapInvP h' ∧
    heapInvP (heappush h x) := by
  obtain ⟨hmin, hms, hinv'⟩ := heappop_spec hinv hpop
  exact ⟨hmin, hms, hinv', heappush_inv hinv x⟩

/-- Witness for C3's amended theorem at a concrete two-event heap. -/
theorem pop_earliest_spec_witness :
    (∀ y ∈ [(⟨1, .locUpdate 1⟩ : Event), ⟨2, .locUpdate 2⟩],
      (⟨1, .locUpdate 1⟩ : Event).time ≤ y.time) ∧
    ((([⟨1, .locUpdate 1⟩, ⟨2, .locUpdate 2⟩] : List Event) : Multiset Event) =
      (⟨1, .locUpdate 1⟩ : Event) ::ₘ (([⟨2, .locUpdate 2⟩] : List Event) : Multiset Event)) ∧
    heapInvP [⟨2, .locUpdate 2⟩] ∧
    heapInvP (heappush [(⟨1, .locUpdate 1⟩ : Event), ⟨2, .locUpdate 2⟩] ⟨0, .locUpdate 3⟩) :=
  pop_earliest_spec [⟨1, .locUpdate 1⟩, ⟨2, .locUpdate 2⟩] [⟨2, .locUpdate 2⟩]
    ⟨1, .locUpdate 1⟩ ⟨0, .locUpdate 3⟩ (by decide) (by decide)

/-- C3 counterexample: the event comparison ignores everything but the
time, and the pop order of two fixed equal-time events depends on the other
heap contents — pushed alone (both at time 1) they pop in insertion order,
but after also pushing a time-0 event they pop in reversed insertion order.
Hence no deterministic per-event secondary key resolves ties. -/
theorem tie_break_no_secondary_key :
    heappop (heappush (heappush [] (⟨1, .locUpdate 1⟩ : Event)) ⟨1, .locUpdate 2⟩) =
      some (⟨1, .locUpdate 1⟩, [⟨1, .locUpdate 2⟩]) ∧
    heappop (heappush (heappush (heappush [] (⟨1, .locUpdate 1⟩ : Event)) ⟨1, .locUpdate 2⟩)
        ⟨0, .locUpdate 3⟩) =
      some (⟨0, .locUpdate 3⟩, [⟨1, .locUpdate 2⟩, ⟨1, .locUpdate 1⟩]) ∧
    heappop [(⟨1, .locUpdate 2⟩ : Event), ⟨1, .locUpdate 1⟩] =
      some (⟨1, .locUpdate 2⟩, [⟨1, .locUpdate 1⟩]) ∧
    ¬ (⟨1, .locUpdate 1⟩ : Event).time < (⟨1, .locUpdate 2⟩ : Event).time ∧
    ¬ (⟨1, .locUpdate 2⟩ : Event).time < (⟨1, .locUpdate 1⟩ : Event).time := by
  decide

/-! ### Simulation-loop invariant lemmas -/

theorem foldl_preserve {α : Type} (P : SimState → Prop) (f : SimState → α → SimState)
    (hf : ∀ s a, P s → P (f s a)) : ∀ (l : List α) (s : SimState), P s → P (l.foldl f s) := by
  intro l
  induction l with
  | nil => intro s hs; exact hs
  | cons a t ih => intro s hs; exact ih _ (hf s a hs)

theorem dictSet_mem {β : Type} {l : List (ℕ × β)} {k : ℕ} {v : β} {p : ℕ × β}
    (hp : p ∈ dictSet l k v) : p ∈ l ∨ p = (k, v) := by
  induction l with
  | nil => simp [dictSet] at hp; right; exact hp
  | cons kv t ih =>
    simp only [dictSet] at hp
    split at hp
    · rcases List.mem_cons.mp hp with h1 | h1
      · right; exact h1
      · left; exact List.mem_cons_of_mem _ h1
    · rcases List.mem_cons.mp hp with h1 | h1
      · left; exact h1 ▸ List.mem_cons_self _ _
      · rcases ih h1 with h2 | h2
        · left; exact List.mem_cons_of_mem _ h2
        · right; exact h2

theorem idToCall_mem {calls : List Call} {cid : ℕ} {c : Call}
    (h : idToCall calls cid = some c) : c ∈ calls ∧ c.call_id = cid := by
  unfold idToCall at h
  obtain ⟨ys, hys⟩ := List.getLast?_eq_some_iff.mp h
  have hc : c ∈ calls.filter fun d => d.call_id = cid := by
    rw [hys]; exact List.mem_append_right _ (List.mem_singleton_self c)
  have := List.mem_filter.mp hc
  exact ⟨this.1, by simpa using this.2⟩

theorem idToCall_self {calls : List Call} (hnd : (calls.map Call.call_id).Nodup)
    {c : Call} (hc : c ∈ calls) : idToCall calls c.call_id = some c := by
  unfold idToCall
  induction calls with
  | nil => simp at hc
  | cons d rest ih =>
    rw [List.map_cons, List.nodup_cons] at hnd
    rcases List.mem_cons.mp hc with h1 | h1
    · subst h1
      have hnone : rest.filter (fun d => d.call_id = c.call_id) = [] := by
        apply List.filter_eq_nil_iff.mpr
        intro x hx
        simp only [decide_eq_true_eq]
        intro hxc
        exact hnd.1 (hxc ▸ List.mem_map_of_mem Call.call_id hx)
      simp [List.filter_cons, hnone]
    · have hne : ¬ d.call_id = c.call_id := by
        intro hh
        exact hnd.1 (hh ▸ List.mem_map_of_mem Call.call_id h1)
      rw [List.filter_cons, if_neg (by simpa using hne)]
      exact ih hnd.2 h1

theorem qInv_push {calls : List Call} {now : ℚ} {q : List Event} {ev : Event}
    (hq : qInv calls now q) (hok : payloadOk calls ev) (ht : now ≤ ev.time) :
    qInv calls now (heappush q ev) := by
  obtain ⟨h1, h2, h3⟩ := hq
  refine ⟨heappush_inv h1 ev, ?_, ?_⟩
  · intro y hy
    rcases heappush_mem hy with hh | hh
    · exact h2 y hh
    · exact hh ▸ hok
  · intro y hy
    rcases heappush_mem hy with hh | hh
    · exact h3 y hh
    · exact hh ▸ ht

theorem beginTravelTo_stable (tr : Travel) (vid : ℕ) (dest : Pos) (dep : ℚ)
    {st0 s : SimState} (hper : 0 ≤ st0.loc_update_period) (hs : stableTo st0 s) :
    stableTo st0 (beginTravelTo tr vid dest dep s) := by
  obtain ⟨hc, hp, hn, hw, hr, hg, hq⟩ := hs
  refine ⟨hc, hp, hn, hw, hr, hg, ?_⟩
  show qInv st0.calls st0.now
    (heappush s.event_q ⟨max s.now dep + s.loc_update_period, .locUpdate vid⟩)
  apply qInv_push hq
  · exact trivial
  · rw [hn, hp]
    calc st0.now ≤ max st0.now dep := le_max_left _ _
      _ ≤ max st0.now dep + st0.loc_update_period := le_add_of_nonneg_right hper

theorem rtsOk_congr {s t : SimState} (hr : s.response_times = t.response_times)
    (hg : s.ghost = t.ghost) (h : rtsOk t) : rtsOk s := by
  unfold rtsOk at *
  rw [hr, hg]
  exact h

theorem foldBT_stable (tr : Travel) (dest : Pos) (k : ℚ) (l : List ℕ) (st4 : SimState)
    (hper : 0 ≤ st4.loc_update_period) (hq : qInv st4.calls st4.now st4.event_q) :
    stableTo st4 (l.foldl (fun s vid => beginTravelTo tr vid dest (s.now + k) s) st4) :=
  foldl_preserve (stableTo st4) _
    (fun s vid hs => beginTravelTo_stable tr vid dest (s.now + k) hper hs) l st4
    ⟨rfl, rfl, rfl, rfl, rfl, rfl, hq⟩

theorem now_le_sum3 {now d e s : ℚ} (hd : 0 ≤ d) (he : 0 ≤ e) (hs : 0 ≤ s) :
    now ≤ now + d + e + s := by linarith

/-- The first computed arrival time is never before the clock, for any
non-negative travel model. -/
theorem firstArrival_lb (tr : Travel) (c : Call) (a0 : ℕ) (arest : List ℕ) (s : SimState)
    (htr : travelNN tr) (hd : 0 ≤ c.dispatch_delay) :
    s.now ≤ firstArrival tr c a0 arest s := by
  simp only [firstArrival, etaTo]
  have he := htr (vloc (getVehicle s (pyMinBy
    (fun vid => etaTo tr s.now c (getVehicle s vid)) a0 arest))) c.loc_scene s.now
    (getVehicle s (pyMinBy (fun vid => etaTo tr s.now c (getVehicle s vid)) a0 arest)).kind
  simp only [etaTo] at he
  linarith

theorem flagAssign_now (c : Call) (a0 : ℕ) (arest : List ℕ) (st : SimState) :
    (flagAssign c a0 arest st).now = st.now := rfl

/-- Field projections of `serveCallPre`. -/
theorem serveCallPre_fields (tr : Travel) (rec : Bool) (c : Call) (a0 : ℕ)
    (arest : List ℕ) (st : SimState) :
    (serveCallPre tr rec c a0 arest st).calls = st.calls ∧
    (serveCallPre tr rec c a0 arest st).loc_update_period = st.loc_update_period ∧
    (serveCallPre tr rec c a0 arest st).now = st.now ∧
    (serveCallPre tr rec c a0 arest st).wait_q = st.wait_q ∧
    (serveCallPre tr rec c a0 arest st).event_q =
      heappush st.event_q
        ⟨firstArrival tr c a0 arest (flagAssign c a0 arest st) + c.scene_time,
          .sceneDepart c⟩ ∧
    (serveCallPre tr rec c a0 arest st).response_times =
      (if rec then
        dictSet st.response_times c.call_id
          (firstArrival tr c a0 arest (flagAssign c a0 arest st) - c.t_call)
      else st.response_times) ∧
    (serveCallPre tr rec c a0 arest st).ghost =
      (if rec then
        st.ghost ++ [(c, firstArrival tr c a0 arest (flagAssign c a0 arest st),
          firstArrival tr c a0 arest (flagAssign c a0 arest st) - c.t_call)]
      else st.ghost) := by
  cases rec <;> exact ⟨rfl, rfl, rfl, rfl, rfl, rfl, rfl⟩

/-- `serveCallPre` keeps the queue well-formed and the recorded response
times correct. -/
theorem serveCallPre_inv (tr : Travel) (rec : Bool) (c : Call) (a0 : ℕ) (arest : List ℕ)
    (st : SimState)
    (htr : travelNN tr) (hd : 0 ≤ c.dispatch_delay) (hsc : 0 ≤ c.scene_time)
    (hc : c ∈ st.calls) (hct : c.t_call ≤ st.now)
    (hq : qInv st.calls st.now st.event_q) (hrts : rtsOk st) :
    qInv st.calls st.now (serveCallPre tr rec c a0 arest st).event_q ∧
    rtsOk (serveCallPre tr rec c a0 arest st) := by
  obtain ⟨_, _, _, _, heq, hrt, hgh⟩ := serveCallPre_fields tr rec c a0 arest st
  have hlb : st.now ≤ firstArrival tr c a0 arest (flagAssign c a0 arest st) := by
    have := firstArrival_lb tr c a0 arest (flagAssign c a0 arest st) htr hd
    rwa [flagAssign_now] at this
  constructor
  · rw [heq]
    apply qInv_push hq
    · exact hc
    · show st.now ≤ firstArrival tr c a0 arest (flagAssign c a0 arest st) + c.scene_time
      linarith
  · cases rec with
    | false =>
      simp only [if_neg (by simp : ¬ (false = true))] at hrt hgh
      exact rtsOk_congr hrt hgh hrts
    | true =>
      simp only [if_pos rfl] at hrt hgh
      obtain ⟨hg1, hg2⟩ := hrts
      constructor
      · intro g hg
        rw [hgh] at hg
        rcases List.mem_append.mp hg with h1 | h1
        · exact hg1 g h1
        · rcases List.mem_singleton.mp h1 with rfl
          refine ⟨rfl, ?_⟩

          show (0 : ℚ) ≤ firstArrival tr c a0 arest (flagAssign c a0 arest st) - c.t_call
          linarith
      · intro p hp
        rw [hrt] at hp
        rw [hgh]
        rcases dictSet_mem hp with h1 | h1
        · obtain ⟨g, hgmem, hgid, hgval⟩ := hg2 p h1
          exact ⟨g, List.mem_append_left _ hgmem, hgid, hgval⟩
        · subst h1
          exact ⟨(c, firstArrival tr c a0 arest (flagAssign c a0 arest st),
            firstArrival tr c a0 arest (flagAssign c a0 arest st) - c.t_call),
            List.mem_append_right _ (List.mem_singleton_self _), rfl, rfl⟩

/-- The common success path (`serveCall`) leaves the calls, period, clock
and wait list unchanged, keeps the event queue well-formed with all events
at or after `now`, and keeps every recorded response time equal to the
first-arrival time minus the call time and non-negative. -/
theorem serveCall_inv (tr : Travel) (rec : Bool) (c : Call) (assigned : List ℕ)
    (st : SimState)
    (htr : travelNN tr) (hnn : callsNN st.calls) (hper : 0 ≤ st.loc_update_period)
    (hc : c ∈ st.calls) (hct : c.t_call ≤ st.now)
    (hq : qInv st.calls st.now st.event_q) (hrts : rtsOk st) :
    (serveCall tr rec c assigned st).calls = st.calls ∧
    (serveCall tr rec c assigned st).loc_update_period = st.loc_update_period ∧
    (serveCall tr rec c assigned st).now = st.now ∧
    (serveCall tr rec c assigned st).wait_q = st.wait_q ∧
    qInv st.calls st.now (serveCall tr rec c assigned st).event_q ∧
    rtsOk (serveCall tr rec c assigned st) := by
  obtain ⟨hd, hsc, hh, hho⟩ := hnn c hc
  cases assigned with
  | nil => exact ⟨rfl, rfl, rfl, rfl, hq, hrts⟩
  | cons a0 arest =>
    obtain ⟨hqpre, hrtspre⟩ := serveCallPre_inv tr rec c a0 arest st htr hd hsc hc hct hq hrts
    obtain ⟨p1, p2, p3, p4, _, _, _⟩ := serveCallPre_fields tr rec c a0 arest st
    have hfold := foldBT_stable tr c.loc_scene c.dispatch_delay (a0 :: arest)
      (serveCallPre tr rec c a0 arest st) (by rw [p2]; exact hper)
      (by rw [p1, p3]; exact hqpre)
    obtain ⟨f1, f2, f3, f4, f5, f6, f7⟩ := hfold
    have hsceq : serveCall tr rec c (a0 :: arest) st =
        (a0 :: arest).foldl
          (fun s vid => beginTravelTo tr vid c.loc_scene (s.now + c.dispatch_delay) s)
          (serveCallPre tr rec c a0 arest st) := rfl
    rw [← hsceq] at f7
    rw [p1, p3] at f7
    rw [hsceq]
    refine ⟨by rw [f1, p1], by rw [f2, p2], by rw [f3, p3], by rw [f4, p4], f7,
      rtsOk_congr f5 f6 hrtspre⟩

theorem handlerOK_refl {st : SimState} (hq : qInv st.calls st.now st.event_q)
    (hrts : rtsOk st) : handlerOK st st :=
  ⟨rfl, rfl, rfl, hq, hrts, fun _ hcid => Or.inl hcid⟩

theorem handlerOK_trans {st s1 s2 : SimState} (h1 : handlerOK st s1) (h2 : handlerOK s1 s2) :
    handlerOK st s2 := by
  obtain ⟨a1, a2, a3, a4, a5, a6⟩ := h1
  obtain ⟨b1, b2, b3, b4, b5, b6⟩ := h2
  refine ⟨b1.trans a1, b2.trans a2, b3.trans a3, ?_, b5, ?_⟩
  · rw [a1, a3] at b4; exact b4
  · intro cid hcid
    rcases b6 cid hcid with hh | hh
    · exact a6 cid hh
    · rw [a1, a3] at hh; exact Or.inr hh

theorem handlerOK_becomeAvailable {st s : SimState} (vid : ℕ) (h : handlerOK st s) :
    handlerOK st (becomeAvailable vid s) := by
  obtain ⟨a1, a2, a3, a4, a5, a6⟩ := h
  exact ⟨a1, a2, a3, a4, rtsOk_congr rfl rfl a5, a6⟩

theorem handlerOK_push {st s : SimState} (ev : Event) (hok : payloadOk st.calls ev)
    (ht : st.now ≤ ev.time) (h : handlerOK st s) :
    handlerOK st { s with event_q := heappush s.event_q ev } := by
  obtain ⟨a1, a2, a3, a4, a5, a6⟩ := h
  exact ⟨a1, a2, a3, qInv_push a4 hok ht, rtsOk_congr rfl rfl a5, a6⟩

theorem handlerOK_beginTravel {st s : SimState} (tr : Travel) (vid : ℕ) (dest : Pos)
    (dep : ℚ) (hper : 0 ≤ st.loc_update_period) (h : handlerOK st s) :
    handlerOK st (beginTravelTo tr vid dest dep s) := by
  obtain ⟨a1, a2, a3, a4, a5, a6⟩ := h
  refine ⟨a1, a2, a3, ?_, rtsOk_congr rfl rfl a5, a6⟩
  show qInv st.calls st.now
    (heappush s.event_q ⟨max s.now dep + s.loc_update_period, .locUpdate vid⟩)
  apply qInv_push a4
  · trivial
  · rw [a3, a2]
    calc st.now ≤ max st.now dep := le_max_left _ _
      _ ≤ max st.now dep + st.loc_update_period := le_add_of_nonneg_right hper

theorem handlerOK_serveCall {tr : Travel} {st s : SimState} (rec : Bool) (c : Call)
    (assigned : List ℕ)
    (htr : travelNN tr) (hnn : callsNN st.calls) (hper : 0 ≤ st.loc_update_period)
    (hc : c ∈ st.calls) (hct : c.t_call ≤ st.now) (h : handlerOK st s) :
    handlerOK st (serveCall tr rec c assigned s) := by
  obtain ⟨a1, a2, a3, a4, a5, a6⟩ := h
  have hs := serveCall_inv tr rec c assigned s htr (a1 ▸ hnn) (a2 ▸ hper) (a1 ▸ hc)
    (a3 ▸ hct) (by rw [a1, a3]; exact a4) a5
  obtain ⟨b1, b2, b3, b4, b5, b6⟩ := hs
  refine ⟨b1.trans a1, b2.trans a2, b3.trans a3, ?_, b6, ?_⟩
  · rw [a1, a3] at b5; exact b5
  · intro cid hcid
    rw [b4] at hcid
    exact a6 cid hcid

theorem cqGo_handlerOK (tr : Travel) :
    ∀ (pending : List ℕ) (still : List ℕ) {st s : SimState},
    travelNN tr → callsNN st.calls → 0 ≤ st.loc_update_period →
    handlerOK st s →
    (∀ cid ∈ pending, ∃ c, idToCall st.calls cid = some c ∧ c.t_call ≤ st.now) →
    (∀ cid ∈ still, cid ∈ st.wait_q ∨
      ∃ c, idToCall st.calls cid = some c ∧ c.t_call ≤ st.now) →
    handlerOK st (cqGo tr pending still s) := by
  intro pending
  induction pending with
  | nil =>
    intro still st s htr hnn hper h hpend hstill
    obtain ⟨a1, a2, a3, a4, a5, a6⟩ := h
    exact ⟨a1, a2, a3, a4, rtsOk_congr rfl rfl a5, fun cid hcid => hstill cid hcid⟩
  | cons cid rest ih =>
    intro still st s htr hnn hper h hpend hstill
    obtain ⟨hcall, hcid⟩ := hpend cid (List.mem_cons_self _ _)
    obtain ⟨hcsome, hctime⟩ := hcid
    have hcalls_eq : s.calls = st.calls := h.1
    simp only [cqGo, hcalls_eq, hcsome, Option.getD_some]
    split
    · exact ih (still ++ [cid]) htr hnn hper h
        (fun x hx => hpend x (List.mem_cons_of_mem _ hx))
        (fun x hx => by
          rcases List.mem_append.mp hx with h1 | h1
          · exact hstill x h1
          · rcases List.mem_singleton.mp h1 with rfl
            exact Or.inr ⟨hcall, hcsome, hctime⟩)
    · have hcmem : hcall ∈ st.calls := (idToCall_mem hcsome).1
      exact ih still htr hnn hper
        (handlerOK_serveCall true hcall _ htr hnn hper hcmem hctime h)
        (fun x hx => hpend x (List.mem_cons_of_mem _ hx)) hstill

theorem checkQueue_handlerOK (tr : Travel) {st s : SimState}
    (htr : travelNN tr) (hnn : callsNN st.calls) (hper : 0 ≤ st.loc_update_period)
    (hw : waitOk st) (h : handlerOK st s) :
    handlerOK st (checkQueue tr s) := by
  unfold checkQueue
  split
  · exact handlerOK_trans h (handlerOK_refl (by rw [h.1, h.2.2.1]; exact h.2.2.2.1)
      h.2.2.2.2.1)
  · exact cqGo_handlerOK tr s.wait_q [] htr hnn hper h
      (fun cid hcid => by
        rcases h.2.2.2.2.2 cid hcid with h1 | h1
        · exact hw cid h1
        · exact h1)
      (fun cid hcid => by simp at hcid)

/-- `_on_call_arrive` satisfies the handler contract when run at its call's
arrival time. -/
theorem onCallArrive_handlerOK (tr : Travel) (rec : Bool) (c : Call) {st : SimState}
    (htr : travelNN tr) (hnn : callsNN st.calls) (hnd : (st.calls.map Call.call_id).Nodup)
    (hper : 0 ≤ st.loc_update_period) (hq : qInv st.calls st.now st.event_q)
    (hrts : rtsOk st) (hc : c ∈ st.calls) (hct : c.t_call = st.now) :
    handlerOK st (onCallArrive tr rec c st) := by
  unfold onCallArrive
  dsimp only
  split
  · refine ⟨rfl, rfl, rfl, hq, hrts, ?_⟩
    intro cid hcid
    rcases List.mem_append.mp hcid with h1 | h1
    · exact Or.inl h1
    · rcases List.mem_singleton.mp h1 with rfl
      exact Or.inr ⟨c, idToCall_self hnd hc, le_of_eq hct⟩
  · exact handlerOK_serveCall rec c _ htr hnn hper hc (le_of_eq hct)
      (handlerOK_refl hq hrts)

/-- `_on_job_complete` satisfies the handler contract. -/
theorem onJobComplete_handlerOK (tr : Travel) (tvid : ℕ) {st : SimState}
    (htr : travelNN tr) (hnn : callsNN st.calls)
    (hper : 0 ≤ st.loc_update_period) (hq : qInv st.calls st.now st.event_q)
    (hw : waitOk st) (hrts : rtsOk st) :
    handlerOK st (onJobComplete tr tvid st) := by
  unfold onJobComplete
  apply checkQueue_handlerOK tr htr hnn hper hw
  exact handlerOK_beginTravel tr tvid _ _ hper
    (handlerOK_becomeAvailable tvid (handlerOK_refl hq hrts))

/-- `_on_loc_update` satisfies the handler contract. -/
theorem onLocUpdate_handlerOK (vid : ℕ) {st : SimState}
    (hper : 0 ≤ st.loc_update_period) (hq : qInv st.calls st.now st.event_q)
    (hrts : rtsOk st) :
    handlerOK st (onLocUpdate vid st) := by
  unfold onLocUpdate
  have hmid : ∀ s : SimState, s.calls = st.calls → s.loc_update_period = st.loc_update_period →
      s.now = st.now → s.wait_q = st.wait_q → s.response_times = st.response_times →
      s.ghost = st.ghost → s.event_q = st.event_q →
      handlerOK st (if (getVehicle s vid).route.isEmpty then s
        else { s with event_q := heappush s.event_q ⟨s.now + s.loc_update_period,
          .locUpdate vid⟩ }) := by
    intro s e1 e2 e3 e4 e5 e6 e7
    have hbase : handlerOK st s := by
      refine ⟨e1, e2, e3, by rw [e7]; exact hq, ?_, ?_⟩
      · exact rtsOk_congr e5 e6 hrts
      · intro cid hcid; rw [e4] at hcid; exact Or.inl hcid
    split
    · exact hbase
    · apply handlerOK_push _ _ _ hbase
      · trivial
      · show st.now ≤ s.now + s.loc_update_period
        rw [e3, e2]
        exact le_add_of_nonneg_right hper
  dsimp only
  by_cases hr : (getVehicle st vid).route.isEmpty
  · simp only [if_pos hr]
    exact handlerOK_refl hq hrts
  · simp only [if_neg hr]
    exact hmid _ rfl rfl rfl rfl rfl rfl rfl

/-- `_on_scene_depart` satisfies the handler contract. -/
theorem onSceneDepart_handlerOK (tr : Travel) (c : Call) {st : SimState}
    (htr : travelNN tr) (hnn : callsNN st.calls)
    (hper : 0 ≤ st.loc_update_period) (hq : qInv st.calls st.now st.event_q)
    (hw : waitOk st) (hrts : rtsOk st) (hc : c ∈ st.calls) :
    handlerOK st (onSceneDepart tr c st) := by
  obtain ⟨hd, hsc, hh, hho⟩ := hnn c hc
  have hbase : handlerOK st st := handlerOK_refl hq hrts
  have hstep1 : ∀ tv : Option ℕ, handlerOK st (match tv with
      | some tvid =>
        { beginTravelTo tr tvid c.loc_hospital st.now st with
          event_q := heappush (beginTravelTo tr tvid c.loc_hospital st.now st).event_q
            ⟨(beginTravelTo tr tvid c.loc_hospital st.now st).now +
              tr.travel_time
                (vloc (getVehicle (beginTravelTo tr tvid c.loc_hospital st.now st) tvid))
                c.loc_hospital (beginTravelTo tr tvid c.loc_hospital st.now st).now .A +
              c.hospital_time + c.handover_time,
              .jobComplete c.call_id tvid⟩ }
      | none => st) := by
    intro tv
    cases tv with
    | none => exact hbase
    | some tvid =>
      have hbt := handlerOK_beginTravel tr tvid c.loc_hospital st.now hper hbase
      apply handlerOK_push _ _ _ hbt
      · trivial
      · exact now_le_sum3 (htr _ _ _ _) hh hho
  unfold onSceneDepart
  dsimp only
  split
  · exact handlerOK_refl hq hrts
  · apply checkQueue_handlerOK tr htr hnn hper hw
    apply foldl_preserve (handlerOK st)
    · intro s vid hs
      have hgo : ∀ tv : Option ℕ, handlerOK st (if tv = some vid then s else
          beginTravelTo tr vid ((alookup (becomeAvailable vid s).stations
            (getVehicle (becomeAvailable vid s) vid).home_station_id).getD (0, 0))
            (becomeAvailable vid s).now (becomeAvailable vid s)) := by
        intro tv
        split
        · exact hs
        · exact handlerOK_beginTravel tr vid _ _ hper (handlerOK_becomeAvailable vid hs)
      exact hgo _
    · exact hstep1 _

/-- Any event handler, run at the popped event's time, satisfies the
handler contract. -/
theorem handle_handlerOK (tr : Travel) (rec : Bool) (ev : Event) {st : SimState}
    (htr : travelNN tr) (hnn : callsNN st.calls) (hnd : (st.calls.map Call.call_id).Nodup)
    (hper : 0 ≤ st.loc_update_period) (hq : qInv st.calls st.now st.event_q)
    (hw : waitOk st) (hrts : rtsOk st)
    (hok : payloadOk st.calls ev) (hnow : st.now = ev.time) :
    handlerOK st (handle tr rec ev st) := by
  unfold handle
  cases hdata : ev.data with
  | callArrive c =>
    rw [payloadOk, hdata] at hok
    exact onCallArrive_handlerOK tr rec c htr hnn hnd hper hq hrts hok.1
      (by rw [← hok.2, hnow])
  | sceneDepart c =>
    rw [payloadOk, hdata] at hok
    exact onSceneDepart_handlerOK tr c htr hnn hper hq hw hrts hok
  | jobComplete cid vid =>
    exact onJobComplete_handlerOK tr vid htr hnn hper hq hw hrts
  | locUpdate vid =>
    exact onLocUpdate_handlerOK vid hper hq hrts

theorem heappop_eq_none {l : List Event} (h : heappop l = none) : l = [] := by
  unfold heappop at h
  cases hl : l.getLast? with
  | none => exact List.getLast?_eq_none_iff.mp hl
  | some a =>
    rw [hl] at h
    by_cases hre : l.dropLast.isEmpty
    · simp [hre] at h
    · simp [hre] at h

/-- Everything in a heap is at or after the root (list head). -/
theorem heap_all_ge_head {q : List Event} (hinv : heapInvP q) {e0 : Event}
    (h : q.head? = some e0) : ∀ y ∈ q, e0.time ≤ y.time := by
  intro y hy
  obtain ⟨t, rfl⟩ : ∃ t, q = e0 :: t := by
    cases q with
    | nil => simp at h
    | cons a t =>
      have ha : a = e0 := by simpa using h
      exact ⟨t, by rw [ha]⟩
  have h0 : (e0 :: t).getD 0 default = e0 := rfl
  obtain ⟨j, hj, hjy⟩ := List.mem_iff_getElem.mp hy
  have hgd : (e0 :: t).getD j default = y := by
    rw [List.getD_eq_getElem?_getD, List.getElem?_eq_getElem hj, hjy]; rfl
  rw [← hgd, ← h0]
  exact root_min hinv j hj

/-- The main loop preserves the simulation invariant; moreover it leaves the
call list and tick period unchanged, keeps every wait-listed call arrived by
`until_`, and ends with either an empty wait list or a clock at most
`until_`. -/
theorem simLoop_inv (tr : Travel) (until_ : ℚ) (rec : Bool)
    (htr : travelNN tr) :
    ∀ (fuel : ℕ) (st : SimState),
    callsNN st.calls → (st.calls.map Call.call_id).Nodup → 0 ≤ st.loc_update_period →
    simInv st →
    (∀ cid ∈ st.wait_q, ∃ c, idToCall st.calls cid = some c ∧ c.t_call ≤ until_) →
    (st.wait_q = [] ∨ st.now ≤ until_) →
    simInv (simLoop tr until_ rec fuel st) ∧
    (simLoop tr until_ rec fuel st).calls = st.calls ∧
    (simLoop tr until_ rec fuel st).loc_update_period = st.loc_update_period ∧
    (∀ cid ∈ (simLoop tr until_ rec fuel st).wait_q,
      ∃ c, idToCall st.calls cid = some c ∧ c.t_call ≤ until_) ∧
    ((simLoop tr until_ rec fuel st).wait_q = [] ∨
      (simLoop tr until_ rec fuel st).now ≤ until_) := by
  intro fuel
  induction fuel with
  | zero =>
    intro st hnn hnd hper hinv hwb hnb
    exact ⟨hinv, rfl, rfl, hwb, hnb⟩
  | succ n ih =>
    intro st hnn hnd hper hinv hwb hnb
    obtain ⟨hheap, hpay, hwok, hqlb, hrts⟩ := hinv
    simp only [simLoop]
    cases hhd : st.event_q.head? with
    | none =>
      dsimp only
      have hqnil : st.event_q = [] := by
        cases hq : st.event_q with
        | nil => rfl
        | cons a t => rw [hq] at hhd; simp at hhd
      refine ⟨⟨hheap, hpay, ?_, Or.inr ?_, hrts⟩, rfl, rfl, hwb, Or.inr (le_refl _)⟩
      · intro cid hcid
        obtain ⟨c, hsome, hle⟩ := hwb cid hcid
        exact ⟨c, hsome, hle⟩
      · intro ev hev
        rw [hqnil] at hev
        simp at hev
    | some e0 =>
      dsimp only
      have he0mem : e0 ∈ st.event_q := List.mem_of_mem_head? hhd
      by_cases hlt : e0.time < until_
      · rw [if_pos hlt]
        cases hpop : heappop st.event_q with
        | none =>
          exfalso
          rw [heappop_eq_none hpop] at hhd
          simp at hhd
        | some evq =>
          obtain ⟨ev, q'⟩ := evq
          obtain ⟨hmin, hms, hinv'⟩ := heappop_spec hheap hpop
          have hevq : ev ∈ st.event_q := by
            have : ev ∈ (st.event_q : Multiset Event) := by
              rw [hms]; exact Multiset.mem_cons_self _ _
            simpa using this
          have hsubq : ∀ y ∈ q', y ∈ st.event_q := by
            intro y hy
            have : y ∈ (st.event_q : Multiset Event) := by
              rw [hms]; exact Multiset.mem_cons_of_mem (by simpa using hy)
            simpa using this
          have hevlt : ev.time < until_ := lt_of_le_of_lt (hmin e0 he0mem) hlt
          -- the intermediate state after popping and advancing the clock
          have hmidq : qInv st.calls ev.time q' := by
            refine ⟨hinv', ?_, ?_⟩
            · intro y hy; exact hpay y (hsubq y hy)
            · intro y hy; exact hmin y (hsubq y hy)
          have hmidw : ∀ cid ∈ st.wait_q,
              ∃ c, idToCall st.calls cid = some c ∧ c.t_call ≤ ev.time := by
            intro cid hcid
            rcases hqlb with hnilw | hall
            · rw [hnilw] at hcid; simp at hcid
            · obtain ⟨c, hsome, hle⟩ := hwok cid hcid
              exact ⟨c, hsome, le_trans hle (hall ev hevq)⟩
          set mid : SimState := { st with event_q := q', now := ev.time } with hmid
          have hOK : handlerOK mid (handle tr rec ev mid) :=
            handle_handlerOK tr rec ev htr hnn hnd hper hmidq hmidw hrts
              (hpay ev hevq) rfl
          obtain ⟨k1, k2, k3, k4, k5, k6⟩ := hOK
          have hrec := ih (handle tr rec ev mid)
            (by rw [k1]; exact hnn) (by rw [k1]; exact hnd) (by rw [k2]; exact hper)
            (by
              refine ⟨k4.1, ?_, ?_, Or.inr ?_, k5⟩
              · intro y hy; rw [k1]; exact k4.2.1 y hy
              · intro cid hcid
                rcases k6 cid hcid with h1 | h1
                · obtain ⟨c, hsome, hle⟩ := hmidw cid h1
                  exact ⟨c, by rw [k1]; exact hsome, by rw [k3]; exact hle⟩
                · obtain ⟨c, hsome, hle⟩ := h1
                  exact ⟨c, by rw [k1]; exact hsome, by rw [k3]; exact hle⟩
              · intro y hy
                rw [k3]
                exact k4.2.2 y hy)
            (by
              intro cid hcid
              rcases k6 cid hcid with h1 | h1
              · obtain ⟨c, hsome, hle⟩ := hwb cid h1
                exact ⟨c, by rw [k1]; exact hsome, hle⟩
              · obtain ⟨c, hsome, hle⟩ := h1
                exact ⟨c, by rw [k1]; exact hsome, le_of_lt (lt_of_le_of_lt hle hevlt)⟩)
            (Or.inr (by rw [k3]; exact le_of_lt hevlt))
          obtain ⟨r1, r2, r3, r4, r5⟩ := hrec
          refine ⟨r1, by rw [r2, k1], by rw [r3, k2], ?_, r5⟩
          intro cid hcid
          obtain ⟨c, hsome, hle⟩ := r4 cid hcid
          exact ⟨c, by rw [k1] at hsome; exact hsome, hle⟩
      · rw [if_neg hlt]
        have hge : ∀ y ∈ st.event_q, until_ ≤ y.time := by
          intro y hy
          exact le_trans (le_of_not_lt hlt) (heap_all_ge_head hheap hhd y hy)
        refine ⟨⟨hheap, hpay, ?_, Or.inr hge, hrts⟩, rfl, rfl, hwb, Or.inr (le_refl _)⟩
        intro cid hcid
        obtain ⟨c, hsome, hle⟩ := hwb cid hcid
        exact ⟨c, hsome, hle⟩

theorem insertCall_perm (c : Call) (l : List Call) : (insertCall c l).Perm (c :: l) := by
  induction l with
  | nil => exact List.Perm.refl _
  | cons d ds ih =>
    unfold insertCall
    split
    · exact List.Perm.refl _
    · exact (List.Perm.cons d ih).trans (List.Perm.swap c d ds)

theorem sortCalls_perm (l : List Call) : (sortCalls l).Perm l := by
  induction l with
  | nil => exact List.Perm.refl _
  | cons c t ih =>
    have : sortCalls (c :: t) = insertCall c (sortCalls t) := rfl
    rw [this]
    exact (insertCall_perm c (sortCalls t)).trans (List.Perm.cons c ih)

theorem heapInvP_nil : heapInvP [] := by
  intro i hi
  simp at hi

/-- Pushing a batch of CALL_ARRIVE events (the run's warm-up or study
window) keeps the heap invariant and any per-event property shared by the
old events and the pushed ones. -/
theorem pushArrivals_fold (lo hi : ℚ) (P0 : Event → Prop) :
    ∀ (cs : List Call) (q : List Event), heapInvP q → (∀ ev ∈ q, P0 ev) →
    (∀ c ∈ cs, lo ≤ c.t_call → c.t_call < hi → P0 ⟨c.t_call, .callArrive c⟩) →
    heapInvP (cs.foldl
      (fun q c => if lo ≤ c.t_call ∧ c.t_call < hi then heappush q ⟨c.t_call, .callArrive c⟩
        else q) q) ∧
    (∀ ev ∈ cs.foldl
      (fun q c => if lo ≤ c.t_call ∧ c.t_call < hi then heappush q ⟨c.t_call, .callArrive c⟩
        else q) q, P0 ev) := by
  intro cs
  induction cs with
  | nil => intro q h1 h2 _; exact ⟨h1, h2⟩
  | cons c t ih =>
    intro q h1 h2 h3
    simp only [List.foldl_cons]
    by_cases hin : lo ≤ c.t_call ∧ c.t_call < hi
    · rw [if_pos hin]
      apply ih
      · exact heappush_inv h1 _
      · intro ev hev
        rcases heappush_mem hev with hh | hh
        · exact h2 ev hh
        · exact hh ▸ h3 c (List.mem_cons_self _ _) hin.1 hin.2
      · intro c' hc'; exact h3 c' (List.mem_cons_of_mem _ hc')
    · rw [if_neg hin]
      exact ih q h1 h2 (fun c' hc' => h3 c' (List.mem_cons_of_mem _ hc'))

/-- The whole two-phase run (`Simulation.run` before `_kpis`) maintains the
simulation invariant; in particular its final recorded statistics satisfy
`rtsOk`. -/
theorem simRunState_inv (tr : Travel) (calls : List Call) (stations : List (ℕ × Pos))
    (vehicles : List (ℕ × Vehicle)) (period t0 t1 buf : ℚ) (fuel : ℕ)
    (htr : travelNN tr) (hnn : callsNN calls) (hnd : (calls.map Call.call_id).Nodup)
    (hper : 0 ≤ period) (ht : t0 ≤ t1) :
    simInv (simRunState tr calls stations vehicles period t0 t1 buf fuel) := by
  have hCperm := sortCalls_perm calls
  have hnnC : callsNN (sortCalls calls) := fun c hc => hnn c (hCperm.mem_iff.mp hc)
  have hndC : ((sortCalls calls).map Call.call_id).Nodup :=
    ((hCperm.map Call.call_id).nodup_iff).mpr hnd
  unfold simRunState
  -- state after pushing the warm-up arrivals
  have hA := pushArrivals_fold (t0 - buf) t0 (payloadOk (sortCalls calls))
    (sortCalls calls) [] heapInvP_nil (by intro ev hev; simp at hev)
    (fun c hc _ _ => ⟨hc, rfl⟩)
  have hAinv : simInv (pushArrivals (t0 - buf) t0 (initSim calls stations vehicles period)) := by
    refine ⟨hA.1, hA.2, ?_, Or.inl rfl, ?_, ?_⟩
    · intro cid hcid; simp [initSim, pushArrivals] at hcid
    · intro g hg; simp [initSim, pushArrivals] at hg
    · intro p hp; simp [initSim, pushArrivals] at hp
  have hL1 := simLoop_inv tr t0 false htr fuel
    (pushArrivals (t0 - buf) t0 (initSim calls stations vehicles period))
    hnnC hndC hper hAinv
    (by intro cid hcid; simp [initSim, pushArrivals] at hcid)
    (Or.inl rfl)
  obtain ⟨h1inv, h1calls, h1per, h1wb, h1nb⟩ := hL1
  set s1 := simLoop tr t0 false fuel
    (pushArrivals (t0 - buf) t0 (initSim calls stations vehicles period)) with hs1
  obtain ⟨i1, i2, i3, i4, i5⟩ := h1inv
  -- state after pushing the study-window arrivals
  have hC1 := pushArrivals_fold t0 t1 (payloadOk s1.calls) s1.calls s1.event_q i1 i2
    (fun c hc _ _ => ⟨hc, rfl⟩)
  have hCinv : simInv (pushArrivals t0 t1 s1) := by
    refine ⟨hC1.1, hC1.2, ?_, ?_, i5⟩
    · intro cid hcid
      exact i3 cid hcid
    · rcases i4 with hnil | hall
      · exact Or.inl hnil
      · by_cases hwnil : s1.wait_q = []
        · exact Or.inl hwnil
        · have hnow : s1.now ≤ t0 := by
            rcases h1nb with hh | hh
            · exact absurd hh hwnil
            · exact hh
          refine Or.inr ?_
          have := pushArrivals_fold t0 t1 (fun ev => s1.now ≤ ev.time) s1.calls s1.event_q
            i1 hall (fun c _ hlo _ => le_trans hnow hlo)
          exact this.2
  have hL2 := simLoop_inv tr t1 true htr fuel (pushArrivals t0 t1 s1)
    (by rw [show (pushArrivals t0 t1 s1).calls = s1.calls from rfl, h1calls]; exact hnnC)
    (by rw [show (pushArrivals t0 t1 s1).calls = s1.calls from rfl, h1calls]; exact hndC)
    (by rw [show (pushArrivals t0 t1 s1).loc_update_period = s1.loc_update_period from rfl,
        h1per]; exact hper)
    hCinv
    (by
      intro cid hcid
      obtain ⟨c, hsome, hle⟩ := h1wb cid hcid
      refine ⟨c, ?_, le_trans hle ht⟩
      rw [show (pushArrivals t0 t1 s1).calls = s1.calls from rfl, h1calls]
      exact hsome)
    (by
      rcases h1nb with hh | hh
      · exact Or.inl hh
      · exact Or.inr (le_trans hh ht))
  exact hL2.1

/-- C5 (amended): under non-negative travel times, non-negative dispatch
delays and service durations for every call, distinct call ids, a
non-negative tick period and t_start ≤ t_end, every response time the run
records equals the computed first-arriving vehicle's arrival time minus the
call's arrival time (the ghost field stores exactly the recorded
(call, first-arrival, value) triples) and is non-negative. -/
theorem response_times_first_arrival_nonneg
    (tr : Travel) (calls : List Call) (stations : List (ℕ × Pos))
    (vehicles : List (ℕ × Vehicle)) (period t0 t1 buf : ℚ) (fuel : ℕ)
    (htr : travelNN tr) (hnn : callsNN calls) (hnd : (calls.map Call.call_id).Nodup)
    (hper : 0 ≤ period) (ht : t0 ≤ t1) :
    ∀ cid rt,
      (cid, rt) ∈ (simRunState tr calls stations vehicles period t0 t1 buf fuel).response_times →
      0 ≤ rt ∧ ∃ c t_arrive_first,
        (c, t_arrive_first, rt) ∈
          (simRunState tr calls stations vehicles period t0 t1 buf fuel).ghost ∧
        c.call_id = cid ∧ rt = t_arrive_first - c.t_call := by
  intro cid rt hmem
  obtain ⟨_, _, _, _, hg1, hg2⟩ :=
    simRunState_inv tr calls stations vehicles period t0 t1 buf fuel htr hnn hnd hper ht
  obtain ⟨g, hgmem, hgid, hgval⟩ := hg2 (cid, rt) hmem
  obtain ⟨heq, hpos⟩ := hg1 g hgmem
  simp only at hgid hgval
  refine ⟨hgval ▸ hpos, g.1, g.2.1, ?_, hgid, ?_⟩
  · have hge : g = (g.1, g.2.1, rt) := by
      rw [← hgval]
    rw [← hge]
    exact hgmem
  · rw [← hgval, heq]

/-! ### Dispatch-policy lemmas (claim C1) -/

theorem greedyPick_acc (vs : List Vehicle) :
    ∀ (nA nR : ℤ) (acc : List ℕ), ∃ t, greedyPick vs nA nR acc = acc ++ t := by
  induction vs with
  | nil => intro nA nR acc; exact ⟨[], by simp [greedyPick]⟩
  | cons v vs ih =>
    intro nA nR acc
    simp only [greedyPick]
    by_cases hA : v.kind = .A ∧ 0 < nA
    · rw [if_pos hA]
      dsimp only
      split
      · exact ⟨[v.vehicle_id], rfl⟩
      · obtain ⟨t, ht⟩ := ih (nA - 1) nR (acc ++ [v.vehicle_id])
        exact ⟨[v.vehicle_id] ++ t, by rw [ht, List.append_assoc]⟩
    · rw [if_neg hA]
      by_cases hR : v.kind = .R ∧ 0 < nR
      · rw [if_pos hR]
        dsimp only
        split
        · exact ⟨[v.vehicle_id], rfl⟩
        · obtain ⟨t, ht⟩ := ih nA (nR - 1) (acc ++ [v.vehicle_id])
          exact ⟨[v.vehicle_id] ++ t, by rw [ht, List.append_assoc]⟩
      · rw [if_neg hR]
        dsimp only
        split
        · exact ⟨[], by simp⟩
        · obtain ⟨t, ht⟩ := ih nA nR acc
          exact ⟨t, ht⟩

theorem greedyPick_cons_ne_nil (vs : List Vehicle) (nA nR : ℤ) (a : ℕ) (acc : List ℕ) :
    greedyPick vs nA nR (a :: acc) ≠ [] := by
  obtain ⟨t, ht⟩ := greedyPick_acc vs nA nR (a :: acc)
  rw [ht]
  simp

/-- The greedy pick from the empty accumulator returns nothing exactly when
no offered vehicle's class has a positive remaining need. -/
theorem greedyPick_nil_iff (vs : List Vehicle) (nA nR : ℤ) :
    greedyPick vs nA nR [] = [] ↔
      ∀ v ∈ vs, ¬(v.kind = .A ∧ 0 < nA) ∧ ¬(v.kind = .R ∧ 0 < nR) := by
  induction vs generalizing nA nR with
  | nil => simp [greedyPick]
  | cons v vs ih =>
    simp only [greedyPick]
    by_cases hA : v.kind = .A ∧ 0 < nA
    · rw [if_pos hA]
      dsimp only
      constructor
      · intro hres
        exfalso
        revert hres
        split
        · simp
        · exact greedyPick_cons_ne_nil vs (nA - 1) nR v.vehicle_id []
      · intro hall
        exact absurd hA (hall v (List.mem_cons_self _ _)).1
    · rw [if_neg hA]
      by_cases hR : v.kind = .R ∧ 0 < nR
      · rw [if_pos hR]
        dsimp only
        constructor
        · intro hres
          exfalso
          revert hres
          split
          · simp
          · exact greedyPick_cons_ne_nil vs nA (nR - 1) v.vehicle_id []
        · intro hall
          exact absurd hR (hall v (List.mem_cons_self _ _)).2
      · rw [if_neg hR]
        dsimp only
        split
        · rename_i hzero
          constructor
          · intro _
            intro w hw
            constructor
            · rintro ⟨_, hpos⟩
              omega
            · rintro ⟨_, hpos⟩
              omega
          · intro _; rfl
        · constructor
          · intro hres w hw
            rcases List.mem_cons.mp hw with h1 | h1
            · exact h1 ▸ ⟨hA, hR⟩
            · exact (ih nA nR).mp hres w h1
          · intro hall
            exact (ih nA nR).mpr fun w hw => hall w (List.mem_cons_of_mem _ hw)

theorem insKey_perm {α : Type} (key : α → ℚ) (x : α) (l : List α) :
    (insKey key x l).Perm (x :: l) := by
  induction l with
  | nil => exact List.Perm.refl _
  | cons y ys ih =>
    unfold insKey
    split
    · exact List.Perm.refl _
    · exact (List.Perm.cons y ih).trans (List.Perm.swap x y ys)

theorem sortKey_perm {α : Type} (key : α → ℚ) (l : List α) : (sortKey key l).Perm l := by
  induction l with
  | nil => exact List.Perm.refl _
  | cons x xs ih =>
    have : sortKey key (x :: xs) = insKey key x (sortKey key xs) := rfl
    rw [this]
    exact (insKey_perm key x (sortKey key xs)).trans (List.Perm.cons x ih)

/-- C1 (amended): `_dispatch` returns an empty assignment exactly when no
currently idle vehicle belongs to a class with a positive required count —
so a call whose needs merely cannot be met in full still gets a partial
assignment whenever one matching idle vehicle exists (the source docstring
says as much) — and precisely in the empty case `_on_call_arrive` appends
the whole call to the FIFO wait list, leaving every other component of the
state (vehicles, assignments, statistics, event queue) untouched. -/
theorem dispatch_empty_iff_whole_call_queued (tr : Travel) (st : SimState) (c : Call)
    (rec : Bool) :
    (dispatch tr st c = [] ↔
      ∀ v ∈ idleVehicles st,
        ¬(v.kind = .A ∧ 0 < c.need_ambulances) ∧ ¬(v.kind = .R ∧ 0 < c.need_rrc)) ∧
    (dispatch tr st c = [] →
      onCallArrive tr rec c st = { st with wait_q := st.wait_q ++ [c.call_id] }) := by
  constructor
  · unfold dispatch
    rw [greedyPick_nil_iff]
    constructor
    · intro hall v hv
      exact hall v ((sortKey_perm (etaTo tr st.now c) (idleVehicles st)).mem_iff.mpr hv)
    · intro hall v hv
      exact hall v ((sortKey_perm (etaTo tr st.now c) (idleVehicles st)).mem_iff.mp hv)
  · intro hdisp
    unfold onCallArrive
    rw [hdisp]
    rfl

/-- Witness for C1's amended theorem: with the only ambulance busy, a call
needing one ambulance is queued whole and the state is otherwise
unchanged. -/
theorem dispatch_empty_iff_whole_call_queued_witness :
    dispatch ztr busyAmbSt callTwoA = [] ∧
    onCallArrive ztr true callTwoA busyAmbSt =
      { busyAmbSt with wait_q := busyAmbSt.wait_q ++ [callTwoA.call_id] } :=
  ⟨by decide,
    (dispatch_empty_iff_whole_call_queued ztr busyAmbSt callTwoA true).2 (by decide)⟩

/-- C1 counterexample: one idle ambulance, a call requiring two ambulances
(so the requirement cannot be fully met).  The claim says dispatch must
return an empty result and queue the whole call; instead the code commits a
partial assignment: dispatch returns vehicle 0, the wait list stays empty,
vehicle 0 is marked busy and the assignment is recorded. -/
theorem partial_commit_counterexample :
    (idleVehicles oneAmbSt).length = 1 ∧
    callTwoA.need_ambulances = 2 ∧
    dispatch ztr oneAmbSt callTwoA = [0] ∧
    (onCallArrive ztr true callTwoA oneAmbSt).wait_q = [] ∧
    (alookup (onCallArrive ztr true callTwoA oneAmbSt).vehicles 0).map Vehicle.busy =
      some true ∧
    alookup (onCallArrive ztr true callTwoA oneAmbSt).call_assignments 9 = some [0] := by
  decide

unseal Rat.add Rat.sub Rat.mul in
/-- C2 (code bug, failing run): in run(t_start=10000, t_end=20000,
warmup_buffer=5400), call 2 arrives at t=5001, inside the warm-up window
[4600, 10000).  It is wait-listed (the only ambulance is serving call 1)
and then served from the wait list by `_check_queue` at t=5100 — which
records its response time unconditionally, ignoring record_stats.  So a
warm-up call contributes the entry (2, 99) to the recorded response times,
contradicting the claim that warm-up calls contribute none. -/
theorem warmup_call_recorded :
    callB.t_call = 5001 ∧ ((10000 : ℚ) - 5400 ≤ 5001 ∧ (5001 : ℚ) < 10000) ∧
    alookup warmupRun.response_times callB.call_id = some 99 := by
  exact ⟨rfl, by norm_num, by decide⟩

unseal Rat.add Rat.sub Rat.mul in
/-- C5 counterexample: with the zero travel model (travel times all 0,
hence non-negative) and call 2 having dispatch delay 0, the run still
records the response time -1945 < 0 for call 2: call 1's negative handover
time schedules JOB_COMPLETE at t=-1845, the simulation clock regresses, and
wait-listed call 2 is served before its own arrival time. -/
theorem negative_response_time_counterexample :
    callX.dispatch_delay = 0 ∧
    alookup regressRun.response_times callX.call_id = some (-1945) ∧
    ((-1945 : ℚ) < 0) := by
  exact ⟨rfl, by decide, by norm_num⟩

unseal Rat.add Rat.sub Rat.mul in
/-- Witness for C5's amended theorem: the warm-up run of claim C2 satisfies
every hypothesis (zero travel model, all call data non-negative, distinct
ids, period 120 ≥ 0, 10000 ≤ 20000), and the recorded entry (2, 99) is
certified non-negative by the theorem. -/
theorem response_times_first_arrival_nonneg_witness :
    ((2 : ℕ), (99 : ℚ)) ∈
      (simRunState ztr [callW, callB] stations1 veh1 120 10000 20000 5400 20).response_times ∧
    (0 : ℚ) ≤ 99 :=
  ⟨by decide,
    (response_times_first_arrival_nonneg ztr [callW, callB] stations1 veh1 120 10000 20000
      5400 20 (fun _ _ _ _ => le_refl 0) (by decide) (by decide) (by decide) (by decide)
      2 99 (by decide)).1⟩

/-! ### KPI claims C6 and C7 -/

theorem survival_cardic_arrest_bounds (rt : ℚ) :
    0 < survival_cardic_arrest rt ∧ survival_cardic_arrest rt < 1 := by
  unfold survival_cardic_arrest
  have hexp : 0 < Real.exp (-(26 / 100) + (139 / 1000) * ((rt : ℝ) / 60)) := Real.exp_pos _
  constructor
  · positivity
  · rw [div_lt_one (by linarith)]
    linarith

theorem survival_catA_bounds (rt : ℚ) :
    0 ≤ survival_catA rt ∧ survival_catA rt ≤ 1 := by
  unfold survival_catA
  split <;> norm_num

/-- The KPI accumulator's survival sums are between 0 and the matching
category counts. -/
theorem kpisAcc_bounds (rts : List (ℕ × ℚ)) :
    ∀ cs : List Call,
    0 ≤ (kpisAcc rts cs).2.2.1 ∧ (kpisAcc rts cs).2.2.1 ≤ ((kpisAcc rts cs).1 : ℝ) ∧
    0 ≤ (kpisAcc rts cs).2.2.2 ∧ (kpisAcc rts cs).2.2.2 ≤ ((kpisAcc rts cs).2.1 : ℝ) := by
  intro cs
  induction cs with
  | nil => simp [kpisAcc]
  | cons c cs ih =>
    obtain ⟨ih1, ih2, ih3, ih4⟩ := ih
    simp only [kpisAcc]
    cases halk : alookup rts c.call_id with
    | none => exact ⟨ih1, ih2, ih3, ih4⟩
    | some rt =>
      dsimp only
      by_cases hcard : c.category = "cardiac"
      · rw [if_pos hcard]
        obtain ⟨hs1, hs2⟩ := survival_cardic_arrest_bounds rt
        refine ⟨by positivity, ?_, ih3, ih4⟩
        push_cast
        linarith
      · rw [if_neg hcard]
        by_cases hcata : c.category = "catA"
        · rw [if_pos hcata]
          obtain ⟨hs1, hs2⟩ := survival_catA_bounds rt
          refine ⟨ih1, ih2, by positivity, ?_⟩
          push_cast
          linarith
        · rw [if_neg hcata]
          exact ⟨ih1, ih2, ih3, ih4⟩

/-- The objective of any state is in [0, 1]. -/
theorem kpis_eta_bounds (st : SimState) :
    0 ≤ (kpis st).eta_s ∧ (kpis st).eta_s ≤ 1 := by
  obtain ⟨h1, h2, h3, h4⟩ := kpisAcc_bounds st.response_times st.calls
  unfold kpis
  dsimp only
  set r := kpisAcc st.response_times st.calls with hr
  by_cases hden : (0 : ℝ) < 2 * (r.1 : ℝ) + (r.2.1 : ℝ)
  · rw [if_pos hden]
    constructor
    · apply div_nonneg (by linarith) (by linarith)
    · rw [div_le_one hden]
      linarith
  · rw [if_neg hden]
    have hg : (r.1 : ℝ) = 0 := by
      have := Nat.cast_nonneg (α := ℝ) r.1
      have := Nat.cast_nonneg (α := ℝ) r.2.1
      linarith
    have hd : (r.2.1 : ℝ) = 0 := by
      have := Nat.cast_nonneg (α := ℝ) r.1
      have := Nat.cast_nonneg (α := ℝ) r.2.1
      linarith
    have hsc : r.2.2.1 = 0 := le_antisymm (by rw [hg] at h2; exact h2) h1
    have hsa : r.2.2.2 = 0 := le_antisymm (by rw [hd] at h4; exact h4) h3
    rw [hsc, hsa]
    norm_num

/-- C6 (confirmed): for every simulation run — any calls, stations,
vehicles, tick period, window, fuel bound and travel model whatsoever —
the returned objective score eta_s lies in [0, 1]. -/
theorem eta_s_in_unit_interval (tr : Travel) (calls : List Call)
    (stations : List (ℕ × Pos)) (vehicles : List (ℕ × Vehicle))
    (period t0 t1 buf : ℚ) (fuel : ℕ) :
    0 ≤ (simRun tr calls stations vehicles period t0 t1 buf fuel).eta_s ∧
    (simRun tr calls stations vehicles period t0 t1 buf fuel).eta_s ≤ 1 :=
  kpis_eta_bounds (simRunState tr calls stations vehicles period t0 t1 buf fuel)

/-- When no tracked (cardiac or catA) call has a recorded response time,
the accumulator is all zero. -/
theorem kpisAcc_no_tracked (rts : List (ℕ × ℚ)) :
    ∀ cs : List Call,
    (∀ c ∈ cs, (c.category = "cardiac" ∨ c.category = "catA") →
      alookup rts c.call_id = none) →
    kpisAcc rts cs = (0, 0, 0, 0) := by
  intro cs
  induction cs with
  | nil => intro _; rfl
  | cons c cs ih =>
    intro h
    simp only [kpisAcc]
    rw [ih (fun c' hc' => h c' (List.mem_cons_of_mem _ hc'))]
    cases halk : alookup rts c.call_id with
    | none => rfl
    | some rt =>
      dsimp only
      by_cases hcard : c.category = "cardiac"
      · rw [h c (List.mem_cons_self _ _) (Or.inl hcard)] at halk
        exact absurd halk (by simp)
      · rw [if_neg hcard]
        by_cases hcata : c.category = "catA"
        · rw [h c (List.mem_cons_self _ _) (Or.inr hcata)] at halk
          exact absurd halk (by simp)
        · rw [if_neg hcata]

/-- C7 (confirmed): if no cardiac-category and no catA-category call has a
recorded response time, the denominator guard takes the 1 branch (2·gamma +
delta = 0 is not positive) and the KPI result is a defined score of exactly
0, with zero counts — the total function raises nothing. -/
theorem kpis_no_tracked_calls_zero (st : SimState)
    (h : ∀ c ∈ st.calls, (c.category = "cardiac" ∨ c.category = "catA") →
      alookup st.response_times c.call_id = none) :
    (kpis st).eta_s = 0 ∧ (kpis st).cardiac_calls = 0 ∧ (kpis st).catA_calls = 0 := by
  unfold kpis
  rw [kpisAcc_no_tracked st.response_times st.calls h]
  norm_num

/-- Witness for C7 at a concrete state with no calls at all. -/
theorem kpis_no_tracked_calls_zero_witness :
    (kpis oneAmbSt).eta_s = 0 ∧ (kpis oneAmbSt).cardiac_calls = 0 ∧
    (kpis oneAmbSt).catA_calls = 0 :=
  kpis_no_tracked_calls_zero oneAmbSt (by decide)

/-! ### Codec claims C4 and C8 -/

unseal Rat.add Rat.sub Rat.mul Rat.inv in
/-- C4 (code_bug): `_decode` does not fail fast on a genotype of the wrong
length.  For `cfgLen1` the configured chromosome length is 1, yet the
2-gene genotype [1/2, 7/10] decodes successfully — to exactly the decoding
of its 1-gene prefix, the extra gene silently ignored. -/
theorem decode_accepts_wrong_length :
    ([(1 : ℚ)/2, 7/10].length ≠ chromLen cfgLen1) ∧
    (decode cfgLen1 [1/2, 7/10]).isSome = true ∧
    decode cfgLen1 [1/2, 7/10] = decode cfgLen1 [1/2] := by decide

/-- Banker's rounding of a rational in [0, k] stays in [0, k]. -/
theorem pyRound_nonneg_le (x : ℚ) (k : ℤ) (hx : 0 ≤ x) (hk : x ≤ (k : ℚ)) :
    0 ≤ pyRound x ∧ pyRound x ≤ k := by
  unfold pyRound
  have hn0 : (0 : ℤ) ≤ ⌊x⌋ := Int.floor_nonneg.mpr hx
  have hnk : ⌊x⌋ ≤ k := by
    have h := Int.floor_le_floor hk
    simpa using h
  dsimp only
  by_cases h1 : x - (⌊x⌋ : ℚ) < 1/2
  · rw [if_pos h1]; exact ⟨hn0, hnk⟩
  · rw [if_neg h1]
    have hlt : ⌊x⌋ < k := by
      have hhalf : (1 : ℚ)/2 ≤ x - (⌊x⌋ : ℚ) := le_of_not_lt h1
      have hxlt : (⌊x⌋ : ℚ) < (k : ℚ) := by linarith
      exact_mod_cast hxlt
    by_cases h2 : (1 : ℚ)/2 < x - (⌊x⌋ : ℚ)
    · rw [if_pos h2]
      omega
    · rw [if_neg h2]
      by_cases h3 : 2 ∣ ⌊x⌋
      · rw [if_pos h3]; exact ⟨hn0, hnk⟩
      · rw [if_neg h3]; omega

/-- Bumping one station's bucket does not change the key list. -/
theorem bumpCount_map_fst (k : VKind) :
    ∀ (al : List (ℕ × Counts)) (key : ℕ),
    (bumpCount k al key).map Prod.fst = al.map Prod.fst := by
  intro al
  induction al with
  | nil => intro key; rfl
  | cons p t ih =>
    intro key
    obtain ⟨sid, cnt⟩ := p
    simp only [bumpCount]
    by_cases h : sid = key
    · rw [if_pos h]; rfl
    · rw [if_neg h]
      simp only [List.map_cons, ih]

/-- Bumping a key that is present adds exactly one vehicle to the total. -/
theorem bumpCount_total (k : VKind) :
    ∀ (al : List (ℕ × Counts)) (key : ℕ), key ∈ al.map Prod.fst →
    ((bumpCount k al key).map fun p => p.2.a + p.2.r).sum =
      (al.map fun p => p.2.a + p.2.r).sum + 1 := by
  intro al
  induction al with
  | nil => intro key h; exact absurd h (by simp)
  | cons p t ih =>
    intro key hmem
    obtain ⟨sid, cnt⟩ := p
    simp only [bumpCount]
    by_cases h : sid = key
    · rw [if_pos h]
      cases k <;> simp only [List.map_cons, List.sum_cons] <;> omega
    · rw [if_neg h]
      have hkey : key ∈ t.map Prod.fst := by
        simp only [List.map_cons, List.mem_cons] at hmem
        exact hmem.resolve_left fun he => h he.symm
      simp only [List.map_cons, List.sum_cons, ih key hkey]
      omega

/-- With a non-empty station list and genes in [0, 1], allocating `cnt`
vehicles succeeds, consumes exactly `cnt` genes, keeps the key list, and
adds exactly `cnt` to the total vehicle count. -/
theorem decodeAlloc_spec (ids : List ℕ) (k : VKind) (hne : ids ≠ []) :
    ∀ (cnt : ℕ) (genes : List ℚ) (al : List (ℕ × Counts)),
    (∀ g ∈ genes, 0 ≤ g ∧ g ≤ 1) → cnt ≤ genes.length → al.map Prod.fst = ids →
    ∃ al2, decodeAlloc ids k cnt genes al = some (al2, genes.drop cnt) ∧
      al2.map Prod.fst = ids ∧
      (al2.map fun p => p.2.a + p.2.r).sum = (al.map fun p => p.2.a + p.2.r).sum + cnt := by
  intro cnt
  induction cnt with
  | zero =>
    intro genes al hg hlen hfst
    exact ⟨al, rfl, hfst, by simp⟩
  | succ n ih =>
    intro genes al hg hlen hfst
    match genes with
    | [] => simp only [List.length_nil] at hlen; omega
    | g :: rest =>
      have hg0 := hg g (List.mem_cons_self _ _)
      have hN : 0 < ids.length := List.length_pos.mpr hne
      have hN1 : (1 : ℚ) ≤ (ids.length : ℚ) := by exact_mod_cast hN
      have hx0 : 0 ≤ g * ((ids.length : ℚ) - 1) := mul_nonneg hg0.1 (by linarith)
      have hxle : g * ((ids.length : ℚ) - 1) ≤ (((ids.length : ℤ) - 1 : ℤ) : ℚ) := by
        push_cast
        nlinarith [hg0.1, hg0.2]
      obtain ⟨hr0, hrle⟩ := pyRound_nonneg_le _ ((ids.length : ℤ) - 1) hx0 hxle
      have hlt : (pyRound (g * ((ids.length : ℚ) - 1))).toNat < ids.length := by omega
      have hidx : pyIdx ids (pyRound (g * ((ids.length : ℚ) - 1))) =
          some (ids.get ⟨(pyRound (g * ((ids.length : ℚ) - 1))).toNat, hlt⟩) := by
        unfold pyIdx
        rw [if_pos hr0]
        exact List.get?_eq_get hlt
      simp only [decodeAlloc]
      rw [hidx]
      have hsid : ids.get ⟨(pyRound (g * ((ids.length : ℚ) - 1))).toNat, hlt⟩ ∈
          al.map Prod.fst := by
        rw [hfst]; exact List.get_mem _ _ _
      obtain ⟨al2, heq, hfst2, htot⟩ := ih rest
        (bumpCount k al (ids.get ⟨(pyRound (g * ((ids.length : ℚ) - 1))).toNat, hlt⟩))
        (fun g2 hg2 => hg g2 (List.mem_cons_of_mem _ hg2))
        (by simp only [List.length_cons] at hlen; omega)
        (by rw [bumpCount_map_fst]; exact hfst)
      refine ⟨al2, heq, hfst2, ?_⟩
      rw [htot, bumpCount_total k al _ hsid]
      omega

/-- Overwrite-or-append never empties a dict. -/
theorem dictSet_ne_nil {β : Type} (l : List (ℕ × β)) (k : ℕ) (v : β) :
    dictSet l k v ≠ [] := by
  match l with
  | [] => simp [dictSet]
  | (k2, w) :: t =>
    simp only [dictSet]
    split <;> simp

/-- Decoding the movable stations from a long-enough genotype succeeds,
consumes two genes per station, and keeps the dict non-empty. -/
theorem decodeStations_spec (nr nc : ℤ) :
    ∀ (sids : List ℕ) (sts : List (ℕ × Pos)) (genes : List ℚ),
    2 * sids.length ≤ genes.length → sts ≠ [] →
    ∃ sts2, decodeStations nr nc sids sts genes = some (sts2, genes.drop (2 * sids.length)) ∧
      sts2 ≠ [] := by
  intro sids
  induction sids with
  | nil =>
    intro sts genes _ hne
    exact ⟨sts, rfl, hne⟩
  | cons sid sids ih =>
    intro sts genes hlen hne
    match genes with
    | [] => simp only [List.length_cons, List.length_nil] at hlen; omega
    | [g] => simp only [List.length_cons, List.length_nil] at hlen; omega
    | g1 :: g2 :: rest =>
      simp only [decodeStations]
      obtain ⟨sts2, heq, hne2⟩ := ih
        (dictSet sts sid (pyRound (g1 * ((nr : ℚ) - 1)), pyRound (g2 * ((nc : ℚ) - 1))))
        rest
        (by simp only [List.length_cons] at hlen; omega)
        (dictSet_ne_nil sts sid _)
      refine ⟨sts2, ?_, hne2⟩
      simp only [List.length_cons]
      rw [show 2 * (sids.length + 1) = 2 * sids.length + 1 + 1 from by ring]
      rw [List.drop_succ_cons, List.drop_succ_cons]
      exact heq

/-- C8 (corrected): for a genotype of the configured length with genes in
[0, 1], given a non-empty fixed station dict and — when the fleet ratio is
fixed — a consistent ratio (both classes non-negative, summing to the fleet
size), decoding succeeds and the allocation's per-station counts (natural
numbers, hence non-negative) sum to exactly the configured total fleet
size.  When the ratio gene is decoded, its clamping makes this
unconditional; a fixed ratio is trusted without any check, so the
consistency hypothesis is genuinely needed. -/
theorem decode_total_counts (cfg : GACfg) (chrom : List ℚ)
    (hlen : chrom.length = chromLen cfg)
    (hg : ∀ g ∈ chrom, 0 ≤ g ∧ g ≤ 1)
    (hsf : cfg.stations_fixed ≠ [])
    (hratio : ∀ a b, cfg.fleet_ratio_fixed = some (a, b) →
      0 ≤ a ∧ 0 ≤ b ∧ a + b = (cfg.total_vehicles : ℤ)) :
    ∃ stations alloc, decode cfg chrom = some (stations, alloc) ∧
      (alloc.map fun p => p.2.a + p.2.r).sum = cfg.total_vehicles := by
  obtain ⟨sts2, hsteq, hstne⟩ := decodeStations_spec cfg.n_rows cfg.n_cols
    cfg.movable_station_ids cfg.stations_fixed chrom
    (by unfold chromLen at hlen; omega) hsf
  have hrest_g : ∀ g ∈ chrom.drop (2 * cfg.movable_station_ids.length), 0 ≤ g ∧ g ≤ 1 :=
    fun g hgm => hg g (List.drop_subset _ _ hgm)
  have hrest_len : (chrom.drop (2 * cfg.movable_station_ids.length)).length =
      (if cfg.fleet_ratio_fixed.isSome then 0 else 1) + cfg.total_vehicles := by
    rw [List.length_drop, hlen]
    unfold chromLen
    omega
  have hids_ne : sts2.map Prod.fst ≠ [] := by
    intro h
    exact hstne (List.map_eq_nil_iff.mp h)
  have halloc0 : (((sts2.map Prod.fst).map
      (fun sid => (sid, ({ a := 0, r := 0 } : Counts)))).map Prod.fst) = sts2.map Prod.fst := by
    simp [List.map_map, Function.comp]
  have halloc0tot : (((sts2.map Prod.fst).map
      (fun sid => (sid, ({ a := 0, r := 0 } : Counts)))).map fun p => p.2.a + p.2.r).sum = 0 := by
    rw [List.map_map, List.map_map]
    refine List.sum_eq_zero fun x hx => ?_
    rw [List.mem_map] at hx
    obtain ⟨p, hp, hpx⟩ := hx
    exact hpx.symm.trans rfl
  unfold decode
  rw [hsteq]
  dsimp only
  cases hfr : cfg.fleet_ratio_fixed with
  | some ab =>
    obtain ⟨a, b⟩ := ab
    obtain ⟨ha, hb, hab⟩ := hratio a b hfr
    rw [hfr] at hrest_len
    simp only [Option.isSome_some, if_true] at hrest_len
    obtain ⟨al1, h1eq, h1fst, h1tot⟩ := decodeAlloc_spec (sts2.map Prod.fst) .A hids_ne
      a.toNat (chrom.drop (2 * cfg.movable_station_ids.length))
      ((sts2.map Prod.fst).map (fun sid => (sid, ({ a := 0, r := 0 } : Counts))))
      hrest_g (by omega) halloc0
    obtain ⟨al2, h2eq, h2fst, h2tot⟩ := decodeAlloc_spec (sts2.map Prod.fst) .R hids_ne
      b.toNat ((chrom.drop (2 * cfg.movable_station_ids.length)).drop a.toNat) al1
      (fun g hgm => hrest_g g (List.drop_subset _ _ hgm))
      (by rw [List.length_drop]; omega) h1fst
    dsimp only
    rw [h1eq]
    dsimp only
    rw [h2eq]
    dsimp only
    refine ⟨sts2, al2, rfl, ?_⟩
    rw [h2tot, h1tot, halloc0tot]
    omega
  | none =>
    rw [hfr] at hrest_len
    simp only [Option.isSome_none, Bool.false_eq_true, if_false] at hrest_len
    cases hrm : chrom.drop (2 * cfg.movable_station_ids.length) with
    | nil =>
      rw [hrm] at hrest_len
      simp only [List.length_nil] at hrest_len
      omega
    | cons g rest2 =>
      rw [hrm] at hrest_len hrest_g
      dsimp only
      have hnA0 : 0 ≤ max 0 (min (cfg.total_vehicles : ℤ) (pyRound (g * (cfg.total_vehicles : ℚ)))) :=
        le_max_left _ _
      have hnAle : max 0 (min (cfg.total_vehicles : ℤ) (pyRound (g * (cfg.total_vehicles : ℚ)))) ≤
          (cfg.total_vehicles : ℤ) := by
        apply max_le
        · exact_mod_cast Nat.zero_le _
        · exact min_le_left _ _
      have hrest2_g : ∀ g2 ∈ rest2, 0 ≤ g2 ∧ g2 ≤ 1 := fun g2 hg2 =>
        hrest_g g2 (List.mem_cons_of_mem _ hg2)
      have hrest2_len : rest2.length = cfg.total_vehicles := by
        simp only [List.length_cons] at hrest_len
        omega
      have hnat1 : (max 0 (min (cfg.total_vehicles : ℤ)
          (pyRound (g * (cfg.total_vehicles : ℚ))))).toNat ≤ cfg.total_vehicles :=
        Int.toNat_le.mpr hnAle
      obtain ⟨al1, h1eq, h1fst, h1tot⟩ := decodeAlloc_spec (sts2.map Prod.fst) .A hids_ne
        (max 0 (min (cfg.total_vehicles : ℤ) (pyRound (g * (cfg.total_vehicles : ℚ))))).toNat
        rest2
        ((sts2.map Prod.fst).map (fun sid => (sid, ({ a := 0, r := 0 } : Counts))))
        hrest2_g (by rw [hrest2_len]; exact hnat1) halloc0
      obtain ⟨al2, h2eq, h2fst, h2tot⟩ := decodeAlloc_spec (sts2.map Prod.fst) .R hids_ne
        ((cfg.total_vehicles : ℤ) -
          max 0 (min (cfg.total_vehicles : ℤ) (pyRound (g * (cfg.total_vehicles : ℚ))))).toNat
        (rest2.drop
          (max 0 (min (cfg.total_vehicles : ℤ) (pyRound (g * (cfg.total_vehicles : ℚ))))).toNat)
        al1
        (fun g2 hg2 => hrest2_g g2 (List.drop_subset _ _ hg2))
        (by rw [List.length_drop, hrest2_len]; omega) h1fst
      rw [h1eq]
      dsimp only
      rw [h2eq]
      dsimp only
      refine ⟨sts2, al2, rfl, ?_⟩
      rw [h2tot, h1tot, halloc0tot]
      omega

unseal Rat.add Rat.sub Rat.mul Rat.inv in
/-- Witness for C8: the 1-gene genotype [1/2] for `cfgLen1` (fixed
consistent ratio (1, 0), one vehicle, one station) decodes to an allocation
of total 1. -/
theorem decode_total_counts_witness :
    ∃ stations alloc, decode cfgLen1 [(1 : ℚ)/2] = some (stations, alloc) ∧
      (alloc.map fun p => p.2.a + p.2.r).sum = cfgLen1.total_vehicles :=
  decode_total_counts cfgLen1 [1/2] (by decide) (by decide) (by decide)
    (fun a b h => by
      simp only [cfgLen1, Option.some.injEq, Prod.mk.injEq] at h
      obtain ⟨ha, hb⟩ := h
      simp only [cfgLen1]
      omega)

unseal Rat.add Rat.sub Rat.mul Rat.inv in
/-- Counterexample to the unconditional claim: with the inconsistent fixed
ratio (0, 0) and one configured vehicle, the full-length genotype [1/2]
(gene in [0, 1]) decodes successfully to a total of 0 vehicles, not 1. -/
theorem decode_total_counts_counterexample :
    ([(1 : ℚ)/2].length = chromLen cfgZeroRatio) ∧
    ((decode cfgZeroRatio [1/2]).map
      (fun p => (p.2.map fun q => q.2.a + q.2.r).sum) = some 0) ∧
    cfgZeroRatio.total_vehicles = 1 := by decide

/-! ### The genetic search loop claim C9 -/

/-- A left max fold lands on a member of its inputs. -/
theorem foldl_max_mem (xs : List ℚ) : ∀ x, xs.foldl max x ∈ x :: xs := by
  induction xs with
  | nil => intro x; exact List.mem_singleton.mpr rfl
  | cons y ys ih =>
    intro x
    have h := ih (max x y)
    rw [List.foldl_cons]
    rcases max_choice x y with hm | hm
    · rcases List.mem_cons.mp h with h1 | h1
      · rw [h1, hm]; exact List.mem_cons_self _ _
      · exact List.mem_cons_of_mem _ (List.mem_cons_of_mem _ h1)
    · rcases List.mem_cons.mp h with h1 | h1
      · rw [h1, hm]; exact List.mem_cons_of_mem _ (List.mem_cons_self _ _)
      · exact List.mem_cons_of_mem _ (List.mem_cons_of_mem _ h1)

/-- A left max fold bounds the start value and every list element. -/
theorem le_foldl_max (xs : List ℚ) : ∀ x y, y ∈ x :: xs → y ≤ xs.foldl max x := by
  induction xs with
  | nil =>
    intro x y hy
    simp only [List.mem_singleton] at hy
    exact le_of_eq (hy ▸ rfl)
  | cons z zs ih =>
    intro x y hy
    rw [List.foldl_cons]
    have hx : max x z ≤ zs.foldl max (max x z) := ih _ _ (List.mem_cons_self _ _)
    rcases List.mem_cons.mp hy with h1 | h1
    · subst h1; exact le_trans (le_max_left _ _) hx
    · rcases List.mem_cons.mp h1 with h2 | h2
      · subst h2; exact le_trans (le_max_right _ _) hx
      · exact ih _ _ (List.mem_cons_of_mem _ h2)

theorem listMax_mem (l : List ℚ) (h : l ≠ []) : listMax l ∈ l := by
  match l with
  | x :: xs =>
    simp only [listMax]
    exact foldl_max_mem xs x

theorem le_listMax (l : List ℚ) (y : ℚ) (hy : y ∈ l) : y ≤ listMax l := by
  match l with
  | [] => exact absurd hy (List.not_mem_nil y)
  | x :: xs =>
    simp only [listMax]
    exact le_foldl_max xs x y hy

theorem listMax_eq_of (l : List ℚ) (b : ℚ) (hmem : b ∈ l) (hub : ∀ y ∈ l, y ≤ b) :
    listMax l = b :=
  le_antisymm (hub _ (listMax_mem l (List.ne_nil_of_mem hmem))) (le_listMax l b hmem)

/-- The first-max index fold stays in range and dominates every entry. -/
theorem argmaxIdx_spec (F : List ℚ) (h : F ≠ []) :
    argmaxIdx F < F.length ∧ ∀ i < F.length, F.getD i 0 ≤ F.getD (argmaxIdx F) 0 := by
  unfold argmaxIdx
  have key : ∀ (l : List ℕ) (acc : ℕ), acc < F.length → (∀ i ∈ l, i < F.length) →
      (l.foldl (fun acc i => if F.getD acc 0 < F.getD i 0 then i else acc) acc < F.length ∧
       F.getD acc 0 ≤
         F.getD (l.foldl (fun acc i => if F.getD acc 0 < F.getD i 0 then i else acc) acc) 0 ∧
       ∀ i ∈ l,
         F.getD i 0 ≤
           F.getD (l.foldl (fun acc i => if F.getD acc 0 < F.getD i 0 then i else acc) acc) 0) := by
    intro l
    induction l with
    | nil =>
      intro acc hacc _
      exact ⟨hacc, le_refl _, fun i hi => absurd hi (List.not_mem_nil i)⟩
    | cons j l ih =>
      intro acc hacc hmem
      rw [List.foldl_cons]
      by_cases hcmp : F.getD acc 0 < F.getD j 0
      · rw [if_pos hcmp]
        obtain ⟨r1, r2, r3⟩ := ih j (hmem j (List.mem_cons_self _ _))
          (fun i hi => hmem i (List.mem_cons_of_mem _ hi))
        refine ⟨r1, le_trans (le_of_lt hcmp) r2, fun i hi => ?_⟩
        rcases List.mem_cons.mp hi with h1 | h1
        · exact h1 ▸ r2
        · exact r3 i h1
      · rw [if_neg hcmp]
        obtain ⟨r1, r2, r3⟩ := ih acc hacc (fun i hi => hmem i (List.mem_cons_of_mem _ hi))
        refine ⟨r1, r2, fun i hi => ?_⟩
        rcases List.mem_cons.mp hi with h1 | h1
        · exact h1 ▸ le_trans (le_of_not_lt hcmp) r2
        · exact r3 i h1
  have h0 : 0 < F.length := List.length_pos.mpr h
  obtain ⟨r1, _, r3⟩ := key (List.range F.length) 0 h0 (fun i hi => List.mem_range.mp hi)
  exact ⟨r1, fun i hi => r3 i (List.mem_range.mpr hi)⟩

/-- The entry at the first-max index is the list maximum. -/
theorem argmax_getD_eq_listMax (F : List ℚ) (h : F ≠ []) :
    F.getD (argmaxIdx F) 0 = listMax F := by
  obtain ⟨hlt, hub⟩ := argmaxIdx_spec F h
  apply (listMax_eq_of F _ ?_ ?_).symm
  · rw [List.getD_eq_getElem F 0 hlt]
    exact List.getElem_mem hlt
  · intro y hy
    obtain ⟨i, hi, hiy⟩ := List.getElem_of_mem hy
    have := hub i hi
    rw [List.getD_eq_getElem F 0 hi, hiy] at this
    exact this

/-- Reading the fitness list at an in-range index is the fitness of the
corresponding chromosome. -/
theorem getD_map_fit (fit : List ℚ → ℚ) (P : List (List ℚ)) (i : ℕ) (h : i < P.length) :
    (P.map fit).getD i 0 = fit (P.getD i []) := by
  rw [List.getD_eq_getElem (P.map fit) 0 (by rw [List.length_map]; exact h),
    List.getD_eq_getElem P [] h, List.getElem_map]

/-- Every generation's population is non-empty when the initial one is and
the update never empties it. -/
theorem popSeq_ne_nil (fit : List ℚ → ℚ) (step : ℕ → List (List ℚ) → List ℚ → List (List ℚ))
    (P0 : List (List ℚ)) (hP0 : P0 ≠ []) (hstep : ∀ g P F, step g P F ≠ []) :
    ∀ g, popSeq fit step P0 g ≠ [] := by
  intro g
  cases g with
  | zero => exact hP0
  | succ g => exact hstep _ _ _

/-- The best-tracking loop: starting from a consistent best pair at
generation `g`, after `n` more generations the tracked best fitness is the
max-fold of the per-generation maxima over the start value, and the tracked
best chromosome evaluates to it. -/
theorem gaLoop_best (fit : List ℚ → ℚ) (step : ℕ → List (List ℚ) → List ℚ → List (List ℚ))
    (P0 : List (List ℚ)) (hP0 : P0 ≠ []) (hstep : ∀ g P F, step g P F ≠ []) :
    ∀ (n g : ℕ) (bc : List ℚ) (bf : ℚ), fit bc = bf →
    fit (gaLoop fit step n g
        (popSeq fit step P0 g, (popSeq fit step P0 g).map fit, bc, bf)).1 =
      (gaLoop fit step n g
        (popSeq fit step P0 g, (popSeq fit step P0 g).map fit, bc, bf)).2 ∧
    (gaLoop fit step n g
        (popSeq fit step P0 g, (popSeq fit step P0 g).map fit, bc, bf)).2 =
      ((List.range n).map fun i =>
        listMax ((popSeq fit step P0 (g + 1 + i)).map fit)).foldl max bf := by
  intro n
  induction n with
  | zero =>
    intro g bc bf hbc
    exact ⟨hbc, rfl⟩
  | succ n ih =>
    intro g bc bf hbc
    have hP1 : popSeq fit step P0 (g + 1) ≠ [] := popSeq_ne_nil fit step P0 hP0 hstep (g + 1)
    have hF1 : (popSeq fit step P0 (g + 1)).map fit ≠ [] := by
      intro hcon
      exact hP1 (List.map_eq_nil_iff.mp hcon)
    obtain ⟨hidx, _⟩ := argmaxIdx_spec ((popSeq fit step P0 (g + 1)).map fit) hF1
    have hidxP : argmaxIdx ((popSeq fit step P0 (g + 1)).map fit) <
        (popSeq fit step P0 (g + 1)).length := by
      rw [List.length_map] at hidx
      exact hidx
    have hfitD : ((popSeq fit step P0 (g + 1)).map fit).getD
        (argmaxIdx ((popSeq fit step P0 (g + 1)).map fit)) 0 =
        fit ((popSeq fit step P0 (g + 1)).getD
          (argmaxIdx ((popSeq fit step P0 (g + 1)).map fit)) []) :=
      getD_map_fit fit _ _ hidxP
    have hmax : ((popSeq fit step P0 (g + 1)).map fit).getD
        (argmaxIdx ((popSeq fit step P0 (g + 1)).map fit)) 0 =
        listMax ((popSeq fit step P0 (g + 1)).map fit) :=
      argmax_getD_eq_listMax _ hF1
    have hstep1 : step g (popSeq fit step P0 g) ((popSeq fit step P0 g).map fit) =
        popSeq fit step P0 (g + 1) := rfl
    simp only [gaLoop]
    rw [hstep1]
    have hrange : ((List.range (n + 1)).map fun i =>
        listMax ((popSeq fit step P0 (g + 1 + i)).map fit)).foldl max bf =
        ((List.range n).map fun i =>
          listMax ((popSeq fit step P0 (g + 1 + 1 + i)).map fit)).foldl max
          (max bf (listMax ((popSeq fit step P0 (g + 1)).map fit))) := by
      rw [List.range_succ_eq_map, List.map_cons, List.foldl_cons, List.map_map]
      congr 1
      · refine List.map_congr_left fun i _ => ?_
        simp only [Function.comp_apply, Nat.succ_eq_add_one]
        rw [show g + 1 + (i + 1) = g + 1 + 1 + i from by omega]
    by_cases hlt : bf < ((popSeq fit step P0 (g + 1)).map fit).getD
        (argmaxIdx ((popSeq fit step P0 (g + 1)).map fit)) 0
    · rw [if_pos hlt]
      obtain ⟨c1, c2⟩ := ih (g + 1)
        ((popSeq fit step P0 (g + 1)).getD
          (argmaxIdx ((popSeq fit step P0 (g + 1)).map fit)) [])
        (((popSeq fit step P0 (g + 1)).map fit).getD
          (argmaxIdx ((popSeq fit step P0 (g + 1)).map fit)) 0)
        hfitD.symm
      refine ⟨c1, ?_⟩
      rw [c2, hrange]
      congr 1
      rw [hmax] at hlt ⊢
      exact (max_eq_right (le_of_lt hlt)).symm
    · rw [if_neg hlt]
      obtain ⟨c1, c2⟩ := ih (g + 1) bc bf hbc
      refine ⟨c1, ?_⟩
      rw [c2, hrange]
      congr 1
      rw [hmax] at hlt
      exact (max_eq_left (le_of_not_lt hlt)).symm

/-- The fitness pool grows by one generation's evaluations at a time. -/
theorem allFits_succ (fit : List ℚ → ℚ) (step : ℕ → List (List ℚ) → List ℚ → List (List ℚ))
    (P0 : List (List ℚ)) (g : ℕ) :
    allFits fit step P0 (g + 1) =
      allFits fit step P0 g ++ (popSeq fit step P0 (g + 1)).map fit := by
  unfold allFits
  rw [List.range_succ, List.flatMap_append]
  simp

theorem allFits_ne_nil (fit : List ℚ → ℚ) (step : ℕ → List (List ℚ) → List ℚ → List (List ℚ))
    (P0 : List (List ℚ)) (hP0 : P0 ≠ []) : ∀ g, allFits fit step P0 g ≠ [] := by
  intro g
  induction g with
  | zero =>
    unfold allFits
    simp only [List.range_succ, List.range_zero, List.nil_append, List.flatMap_cons,
      List.flatMap_nil, List.append_nil]
    intro hcon
    exact hP0 (List.map_eq_nil_iff.mp hcon)
  | succ g ih =>
    rw [allFits_succ]
    exact fun hcon => ih (List.append_eq_nil.mp hcon).1

theorem listMax_append (l1 l2 : List ℚ) (h1 : l1 ≠ []) (h2 : l2 ≠ []) :
    listMax (l1 ++ l2) = max (listMax l1) (listMax l2) := by
  apply listMax_eq_of
  · rcases max_choice (listMax l1) (listMax l2) with hm | hm
    · rw [hm]; exact List.mem_append_left _ (listMax_mem l1 h1)
    · rw [hm]; exact List.mem_append_right _ (listMax_mem l2 h2)
  · intro y hy
    rcases List.mem_append.mp hy with h | h
    · exact le_trans (le_listMax l1 y h) (le_max_left _ _)
    · exact le_trans (le_listMax l2 y h) (le_max_right _ _)

/-- The max-fold of per-generation maxima is the maximum of the whole
fitness pool. -/
theorem foldl_max_allFits (fit : List ℚ → ℚ)
    (step : ℕ → List (List ℚ) → List ℚ → List (List ℚ))
    (P0 : List (List ℚ)) (hP0 : P0 ≠ []) (hstep : ∀ g P F, step g P F ≠ []) :
    ∀ gens, ((List.range gens).map fun i =>
        listMax ((popSeq fit step P0 (0 + 1 + i)).map fit)).foldl max
        (listMax ((popSeq fit step P0 0).map fit)) =
      listMax (allFits fit step P0 gens) := by
  intro gens
  induction gens with
  | zero =>
    unfold allFits
    simp only [List.range_succ, List.range_zero, List.nil_append, List.map_nil,
      List.foldl_nil, List.flatMap_cons, List.flatMap_nil, List.append_nil]
  | succ g ih =>
    rw [List.range_succ, List.map_append, List.foldl_append, ih, allFits_succ,
      listMax_append _ _ (allFits_ne_nil fit step P0 hP0 g) (by
        intro hcon
        exact popSeq_ne_nil fit step P0 hP0 hstep (g + 1) (List.map_eq_nil_iff.mp hcon))]
    simp only [List.map_cons, List.map_nil, List.foldl_cons, List.foldl_nil]
    rw [show 0 + 1 + g = g + 1 from by omega]

/-- C9 (confirmed): with the stochastic population update abstracted as any
non-emptying step function, the value returned by run() equals the maximum
fitness evaluated in any generation (initial included); the best-so-far
after g generations is that running maximum, hence non-decreasing in g; and
the returned chromosome's fitness is the returned best fitness — the best
pair seen across all generations, not merely the best of the final
population. -/
theorem ga_best_tracking (fit : List ℚ → ℚ)
    (step : ℕ → List (List ℚ) → List ℚ → List (List ℚ))
    (P0 : List (List ℚ)) (hP0 : P0 ≠ []) (hstep : ∀ g P F, step g P F ≠ []) :
    (∀ gens, (gaRun fit step P0 gens).2 = listMax (allFits fit step P0 gens)) ∧
    (∀ g1 g2, g1 ≤ g2 → (gaRun fit step P0 g1).2 ≤ (gaRun fit step P0 g2).2) ∧
    (∀ gens, fit (gaRun fit step P0 gens).1 = (gaRun fit step P0 gens).2) := by
  have hF0 : P0.map fit ≠ [] := by
    intro hcon
    exact hP0 (List.map_eq_nil_iff.mp hcon)
  have hidx0 : argmaxIdx (P0.map fit) < P0.length := by
    have := (argmaxIdx_spec (P0.map fit) hF0).1
    rw [List.length_map] at this
    exact this
  have hbc0 : fit (P0.getD (argmaxIdx (P0.map fit)) []) =
      (P0.map fit).getD (argmaxIdx (P0.map fit)) 0 :=
    (getD_map_fit fit P0 _ hidx0).symm
  have hkey : ∀ gens,
      fit (gaRun fit step P0 gens).1 = (gaRun fit step P0 gens).2 ∧
      (gaRun fit step P0 gens).2 = listMax (allFits fit step P0 gens) := by
    intro gens
    obtain ⟨c1, c2⟩ := gaLoop_best fit step P0 hP0 hstep gens 0
      (P0.getD (argmaxIdx (P0.map fit)) [])
      ((P0.map fit).getD (argmaxIdx (P0.map fit)) 0) hbc0
    refine ⟨c1, ?_⟩
    rw [show gaRun fit step P0 gens = gaLoop fit step gens 0
      (popSeq fit step P0 0, (popSeq fit step P0 0).map fit,
        (P0.getD (argmaxIdx (P0.map fit)) []),
        ((P0.map fit).getD (argmaxIdx (P0.map fit)) 0)) from rfl]
    rw [c2, argmax_getD_eq_listMax (P0.map fit) hF0]
    exact foldl_max_allFits fit step P0 hP0 hstep gens
  refine ⟨fun gens => (hkey gens).2, fun g1 g2 h12 => ?_, fun gens => (hkey gens).1⟩
  rw [(hkey g1).2, (hkey g2).2]
  apply le_listMax
  have hsub : ∀ x ∈ allFits fit step P0 g1, x ∈ allFits fit step P0 g2 := by
    intro x hx
    unfold allFits at hx ⊢
    rw [List.mem_flatMap] at hx ⊢
    obtain ⟨i, hi, hxi⟩ := hx
    exact ⟨i, List.mem_range.mpr (lt_of_lt_of_le (List.mem_range.mp hi) (by omega)), hxi⟩
  exact hsub _ (listMax_mem _ (allFits_ne_nil fit step P0 hP0 g1))

/-- Witness for C9 at a concrete fitness (chromosome length), a constant
step function, and a one-chromosome initial population. -/
theorem ga_best_tracking_witness :
    (∀ gens, (gaRun (fun l => (l.length : ℚ)) (fun _ _ _ => [[1, 2]]) [[]] gens).2 =
      listMax (allFits (fun l => (l.length : ℚ)) (fun _ _ _ => [[1, 2]]) [[]] gens)) ∧
    (∀ g1 g2, g1 ≤ g2 →
      (gaRun (fun l => (l.length : ℚ)) (fun _ _ _ => [[1, 2]]) [[]] g1).2 ≤
      (gaRun (fun l => (l.length : ℚ)) (fun _ _ _ => [[1, 2]]) [[]] g2).2) ∧
    (∀ gens, (fun l => ((l.length : ℕ) : ℚ))
        (gaRun (fun l => (l.length : ℚ)) (fun _ _ _ => [[1, 2]]) [[]] gens).1 =
      (gaRun (fun l => (l.length : ℚ)) (fun _ _ _ => [[1, 2]]) [[]] gens).2) :=
  ga_best_tracking (fun l => (l.length : ℚ)) (fun _ _ _ => [[1, 2]]) [[]]
    (List.cons_ne_nil _ _) (fun _ _ _ => List.cons_ne_nil _ _)

/-! ### The fleet builder claim C10 -/

theorem range'_add (m : ℕ) : ∀ (s n : ℕ),
    List.range' s m ++ List.range' (s + m) n = List.range' s (m + n) := by
  induction m with
  | zero =>
    intro s n
    rw [Nat.zero_add]
    rfl
  | succ m ih =>
    intro s n
    rw [List.range'_succ, show m + 1 + n = (m + n) + 1 from by omega, List.range'_succ,
      List.cons_append, show s + (m + 1) = s + 1 + m from by omega, ih (s + 1) n]

theorem mkVehicles_map_fst (s n sid : ℕ) (k : VKind) :
    (mkVehicles s n sid k).map Prod.fst = List.range' s n := by
  unfold mkVehicles
  rw [List.map_map, List.range'_eq_map_range]
  exact List.map_congr_left fun i _ => rfl

theorem mkVehicles_length (s n sid : ℕ) (k : VKind) :
    (mkVehicles s n sid k).length = n := by
  unfold mkVehicles
  rw [List.length_map, List.length_range]

theorem mkVehicles_mem (s n sid : ℕ) (k : VKind) :
    ∀ p ∈ mkVehicles s n sid k,
    p.2.vehicle_id = p.1 ∧ p.2.busy = false ∧ p.2.route = [] ∧
    p.2.assigned_call = none ∧ p.2.home_station_id = sid ∧ p.2.kind = k := by
  intro p hp
  unfold mkVehicles at hp
  rw [List.mem_map] at hp
  obtain ⟨i, _, rfl⟩ := hp
  exact ⟨rfl, rfl, rfl, rfl, rfl, rfl⟩

theorem mkVehicles_filter_len (s n sid : ℕ) (k : VKind) (sid2 : ℕ) (k2 : VKind) :
    ((mkVehicles s n sid k).filter fun p =>
      decide (p.2.home_station_id = sid2 ∧ p.2.kind = k2)).length =
    if sid = sid2 ∧ k = k2 then n else 0 := by
  by_cases h : sid = sid2 ∧ k = k2
  · rw [if_pos h]
    have hf : ((mkVehicles s n sid k).filter fun p =>
        decide (p.2.home_station_id = sid2 ∧ p.2.kind = k2)) = mkVehicles s n sid k :=
      List.filter_eq_self.mpr (by
        intro p hp
        obtain ⟨_, _, _, _, h5, h6⟩ := mkVehicles_mem s n sid k p hp
        rw [h5, h6]
        exact decide_eq_true h)
    rw [hf]
    exact mkVehicles_length s n sid k
  · rw [if_neg h]
    have hf : ((mkVehicles s n sid k).filter fun p =>
        decide (p.2.home_station_id = sid2 ∧ p.2.kind = k2)) = [] :=
      List.filter_eq_nil_iff.mpr (by
        intro p hp
        obtain ⟨_, _, _, _, h5, h6⟩ := mkVehicles_mem s n sid k p hp
        simp only [h5, h6, decide_eq_true_eq]
        exact h)
    rw [hf]
    rfl

/-- The keys produced by the builder from counter `vid` are the consecutive
block starting at `vid` of length the total count. -/
theorem buildFrom_map_fst : ∀ (alloc : List (ℕ × Counts)) (vid : ℕ),
    (buildFrom vid alloc).map Prod.fst =
      List.range' vid ((alloc.map fun p => p.2.a + p.2.r).sum) := by
  intro alloc
  induction alloc with
  | nil => intro vid; rfl
  | cons p rest ih =>
    intro vid
    obtain ⟨sid, cnt⟩ := p
    simp only [buildFrom, List.map_append, List.map_cons, List.sum_cons]
    rw [mkVehicles_map_fst, mkVehicles_map_fst, ih (vid + cnt.a + cnt.r)]
    rw [range'_add cnt.a vid cnt.r]
    rw [show vid + cnt.a + cnt.r = vid + (cnt.a + cnt.r) from by omega]
    rw [range'_add (cnt.a + cnt.r) vid _]

theorem buildFrom_mem : ∀ (alloc : List (ℕ × Counts)) (vid : ℕ),
    ∀ p ∈ buildFrom vid alloc,
    p.2.vehicle_id = p.1 ∧ p.2.busy = false ∧ p.2.route = [] ∧
    p.2.assigned_call = none ∧ p.2.home_station_id ∈ alloc.map Prod.fst := by
  intro alloc
  induction alloc with
  | nil => intro vid p hp; exact absurd hp (List.not_mem_nil p)
  | cons q rest ih =>
    intro vid p hp
    obtain ⟨sid, cnt⟩ := q
    simp only [buildFrom, List.mem_append] at hp
    rcases hp with (hp | hp) | hp
    · obtain ⟨h1, h2, h3, h4, h5, _⟩ := mkVehicles_mem _ _ _ _ p hp
      exact ⟨h1, h2, h3, h4, by rw [h5]; exact List.mem_cons_self _ _⟩
    · obtain ⟨h1, h2, h3, h4, h5, _⟩ := mkVehicles_mem _ _ _ _ p hp
      exact ⟨h1, h2, h3, h4, by rw [h5]; exact List.mem_cons_self _ _⟩
    · obtain ⟨h1, h2, h3, h4, h5⟩ := ih (vid + cnt.a + cnt.r) p hp
      exact ⟨h1, h2, h3, h4, List.mem_cons_of_mem _ h5⟩

/-- Vehicles homed at a station, per class, count exactly that station's
allocation buckets. -/
theorem buildFrom_filter_count : ∀ (alloc : List (ℕ × Counts)) (vid sid2 : ℕ),
    ((buildFrom vid alloc).filter fun p =>
      decide (p.2.home_station_id = sid2 ∧ p.2.kind = VKind.A)).length =
      ((alloc.filter fun q => decide (q.1 = sid2)).map fun q => q.2.a).sum ∧
    ((buildFrom vid alloc).filter fun p =>
      decide (p.2.home_station_id = sid2 ∧ p.2.kind = VKind.R)).length =
      ((alloc.filter fun q => decide (q.1 = sid2)).map fun q => q.2.r).sum := by
  intro alloc
  induction alloc with
  | nil => intro vid sid2; exact ⟨rfl, rfl⟩
  | cons q rest ih =>
    intro vid sid2
    obtain ⟨sid, cnt⟩ := q
    obtain ⟨ihA, ihR⟩ := ih (vid + cnt.a + cnt.r) sid2
    simp only [buildFrom, List.filter_append, List.length_append,
      mkVehicles_filter_len, ihA, ihR, List.filter_cons]
    by_cases hs : sid = sid2
    · subst hs
      constructor
      · simp
      · simp
    · constructor
      · simp [hs]
      · simp [hs]

/-- C10 (confirmed): for every allocation (per-station counts are natural
numbers, hence non-negative), build_vehicles_from_allocation returns a dict
whose keys are exactly 0..n-1 in order, where n is the sum of all counts;
every vehicle has its vehicle_id equal to its key, is idle (busy = false,
no assigned call, empty route), and is homed at a key of the allocation;
and for each station and class, the number of vehicles homed there of that
class is exactly that station's bucket for the class. -/
theorem build_vehicles_spec (alloc : List (ℕ × Counts)) :
    (build_vehicles_from_allocation alloc).map Prod.fst =
      List.range ((alloc.map fun p => p.2.a + p.2.r).sum) ∧
    (build_vehicles_from_allocation alloc).length =
      (alloc.map fun p => p.2.a + p.2.r).sum ∧
    (∀ p ∈ build_vehicles_from_allocation alloc,
      p.2.vehicle_id = p.1 ∧ p.2.busy = false ∧ p.2.route = [] ∧
      p.2.assigned_call = none ∧ p.2.home_station_id ∈ alloc.map Prod.fst) ∧
    (∀ sid : ℕ,
      ((build_vehicles_from_allocation alloc).filter fun p =>
        decide (p.2.home_station_id = sid ∧ p.2.kind = VKind.A)).length =
        ((alloc.filter fun q => decide (q.1 = sid)).map fun q => q.2.a).sum ∧
      ((build_vehicles_from_allocation alloc).filter fun p =>
        decide (p.2.home_station_id = sid ∧ p.2.kind = VKind.R)).length =
        ((alloc.filter fun q => decide (q.1 = sid)).map fun q => q.2.r).sum) := by
  have hfst : (build_vehicles_from_allocation alloc).map Prod.fst =
      List.range ((alloc.map fun p => p.2.a + p.2.r).sum) := by
    unfold build_vehicles_from_allocation
    rw [buildFrom_map_fst alloc 0, List.range_eq_range']
  refine ⟨hfst, ?_, buildFrom_mem alloc 0, fun sid => buildFrom_filter_count alloc 0 sid⟩
  have hlen := congrArg List.length hfst
  rw [List.length_map, List.length_range] at hlen
  exact hlen

end EMS
